import Mathlib

/-!
Verification of the tlspuffin term-algebra core against its specification.

The Rust sources are shallowly embedded:
* `puffin/src/algebra/term.rs` — `Term`, `TermEval`, `Payloads`, sizes,
  iteration, display, lazy and concrete evaluation with payload splicing;
* `puffin/src/algebra/mod.rs` — the `Matcher` trait, its `Option` instance and
  `AnyMatcher`;
* `src/fuzzer/mutations.rs` — the `Skip`, `Repeat` and `ReplaceMatch`
  mutators.

`Box<dyn Any>` values are embedded as an abstract type parameter `V`, matcher
payloads as an abstract type parameter `M`, byte strings (`Vec<u8>`,
`ConcreteMessage`, `BytesInput`) as `List Nat`, and Rust strings as
`Str := List Char`.  Randomness is embedded by passing the drawn random
numbers as explicit arguments.  Code of the repository that is not present
under `src/` (the `atoms`/`trace`/`protocol` modules and `mutations_util`) is
modelled from the specification; each such definition carries a doc comment
starting with `Modelled from the spec:`.
-/

namespace Puffin

/-- Rust strings are embedded as lists of characters. -/
abbrev Str := List Char

/-- Modelled from the spec: `AgentName` is a dense integer (`agent.rs` is not
in the sources). -/
abbrev AgentName := Nat

/-- Modelled from the spec: `Source` is `Agent(name)` or `Label(string)`
(`trace.rs` is not in the sources). -/
inductive Source where
  | agent : AgentName → Source
  | label : Str → Source
deriving DecidableEq, Repr

/-- A registered native type: opaque type-id plus human-readable name.
Two shapes are equal iff their underlying types (type-ids) are identical. -/
structure TypeShape where
  tid : Nat
  name : Str
deriving DecidableEq, Repr

/-- The shape of a dynamic function: stable name, ordered argument types and
return type (`dynamic_function.rs` is not in the sources; the fields are
fixed by their uses in `term.rs` and `mutations.rs`). -/
structure DynamicFunctionShape where
  name : Str
  argument_types : List TypeShape
  return_type : TypeShape
deriving DecidableEq, Repr

/-- Function-shim failures (`algebra/error.rs` is not in the sources; the
variants are those of §7 of the specification). -/
inductive FnError where
  | unknown : Str → FnError
  | malformed : Str → FnError
  | crypto : Str → FnError
deriving DecidableEq, Repr

/-- The error surface of evaluation (§7): `Error::Fn` lifts a shim failure,
`Error::Term` is a variable-lookup failure. -/
inductive Error where
  | fn : FnError → Error
  | term : Str → Error
  | agent : Str → Error
  | stream : Str → Error
deriving DecidableEq, Repr

/-- Modelled from the spec: a variable query `(Source?, Matcher?, index)`
(`trace.rs` is not in the sources). -/
structure Query (M : Type) where
  source : Option Source
  matcher : Option M
  counter : Nat

/-- Modelled from the spec: the agent a query refers to — the agent of its
source, when the source is an agent (`evaluate_lazy` reads
`variable.query.agent_name`; `trace.rs` is not in the sources). -/
def Query.agent_name {M : Type} (q : Query M) : Option AgentName :=
  match q.source with
  | some (Source.agent a) => some a
  | _ => none

/-- A typed variable: type shape plus query (`atoms.rs` is not in the
sources; the fields are fixed by their uses in `term.rs`). -/
structure Variable (M : Type) where
  typ : TypeShape
  query : Query M
  resistant_id : Nat

/-- Modelled from the spec: the display of a variable, used inside the
"Unable to find variable …" message and by `display_at_depth`
(`atoms.rs` is not in the sources). -/
def Variable.display {M : Type} (v : Variable M) : Str :=
  v.typ.name

/-- A function symbol: shape, uniformly-callable shim and random stable
identity. -/
structure Function (V : Type) where
  shape : DynamicFunctionShape
  dynamic_fn : List V → Except FnError V
  resistant_id : Nat

def Function.name {V : Type} (f : Function V) : Str :=
  f.shape.name

/-- Rust `Function::change_function` swaps the shape and shim of a function
symbol in place (`atoms.rs` is not in the sources; the call in
`ReplaceMatchMutator::mutate` fixes the behaviour). -/
def Function.change_function {V : Type} (f : Function V)
    (shape : DynamicFunctionShape) (dynamic_fn : List V → Except FnError V) :
    Function V :=
  { f with shape := shape, dynamic_fn := dynamic_fn }

/-- The byte strings produced by evaluation (`ConcreteMessage = Vec<u8>`). -/
abbrev ConcreteMessage := List Nat

/-- A payload overlay: the anchor `payload_0` and the (bit-mutable)
`payload`. -/
structure Payloads where
  payload_0 : ConcreteMessage
  payload : ConcreteMessage
deriving DecidableEq, Repr

mutual
/-- A first-order term: a variable, or a function applied to `TermEval`
arguments. -/
inductive Term (M V : Type) : Type where
  | variable : Variable M → Term M V
  | application : Function V → List (TermEval M V) → Term M V

/-- A term equipped with an optional payload overlay. -/
inductive TermEval (M V : Type) : Type where
  | mk : Term M V → Option Payloads → TermEval M V
end

def TermEval.term {M V : Type} : TermEval M V → Term M V
  | .mk t _ => t

def TermEval.payloads {M V : Type} : TermEval M V → Option Payloads
  | .mk _ p => p

/-- Rust `Term::is_leaf`: variables and zero-argument applications
(constants). -/
def Term.is_leaf {M V : Type} : Term M V → Bool
  | .variable _ => true
  | .application _ subterms => subterms.isEmpty

/-- Rust `TermEval::is_symbolic`: a term is symbolic while it has no
payloads. -/
def TermEval.is_symbolic {M V : Type} (t : TermEval M V) : Bool :=
  t.payloads.isNone

/-- Rust `TermEval::is_leaf`: symbolic terms defer to the inner term; a term
with payloads counts as a leaf. -/
def TermEval.is_leaf {M V : Type} (t : TermEval M V) : Bool :=
  if t.is_symbolic then t.term.is_leaf else true

mutual
/-- Rust `Term::size`: leaves cost `SIZE_LEAF = 1`, applications cost the sum
of their subterm sizes plus one. -/
def Term.size {M V : Type} : Term M V → Nat
  | .variable _ => 1
  | .application _ subterms => sizeSubterms subterms + 1

/-- Rust `TermEval::size`: a leaf costs `SIZE_LEAF = 1`, otherwise the inner
term's size. -/
def TermEval.size {M V : Type} : TermEval M V → Nat
  | .mk t p => if (TermEval.mk t p).is_leaf then 1 else t.size

/-- The sum `subterms.iter().map(|subterm| subterm.size()).sum()`. -/
def sizeSubterms {M V : Type} : List (TermEval M V) → Nat
  | [] => 0
  | t :: ts => t.size + sizeSubterms ts
end

/-- Rust `Term::get_type_shape`: a variable's declared type, or the
function's return type. -/
def Term.get_type_shape {M V : Type} : Term M V → TypeShape
  | .variable v => v.typ
  | .application func _ => func.shape.return_type

def TermEval.get_type_shape {M V : Type} (t : TermEval M V) : TypeShape :=
  t.term.get_type_shape

/-- Modelled from the spec: the evaluation context exposes the
knowledge-store lookup and the claim lookup used by `evaluate_lazy` as
abstract operations (`trace.rs` is not in the sources). -/
structure TraceContext (M V : Type) where
  find_variable : TypeShape → Query M → Option V
  find_claim : Option AgentName → TypeShape → Option V

mutual
/-- Rust `Term::evaluate_lazy`: variables are resolved through
`find_variable`, then `find_claim`, else `Error::Term`; applications
evaluate their arguments left to right, stopping at the first error, then
invoke the function's shim, lifting a shim failure with `Error::Fn`. -/
def Term.evaluate_lazy {M V : Type} :
    Term M V → TraceContext M V → Except Error V
  | .variable v, context =>
    match context.find_variable v.typ v.query with
    | some data => .ok data
    | none =>
      match context.find_claim v.query.agent_name v.typ with
      | some data => .ok data
      | none =>
        .error (.term ("Unable to find variable ".toList ++ v.display ++ "!".toList))
  | .application func args, context =>
    match evaluateLazyArgs args context with
    | .error e => .error e
    | .ok dynamic_args =>
      match func.dynamic_fn dynamic_args with
      | .ok result => .ok result
      | .error e => .error (.fn e)

/-- The argument loop of `Term::evaluate_lazy`: left to right, returning the
first error. -/
def evaluateLazyArgs {M V : Type} :
    List (TermEval M V) → TraceContext M V → Except Error (List V)
  | [], _ => .ok []
  | .mk t _ :: ts, context =>
    match t.evaluate_lazy context with
    | .ok data =>
      match evaluateLazyArgs ts context with
      | .ok rest => .ok (data :: rest)
      | .error e => .error e
    | .error e => .error e
end

/-- Rust `TermEval::evaluate_lazy` delegates to the inner term. -/
def TermEval.evaluate_lazy {M V : Type} (t : TermEval M V)
    (context : TraceContext M V) : Except Error V :=
  t.term.evaluate_lazy context

/-- Modelled from the spec: the protocol behaviour's encoding of an opaque
value into bytes (`PB::any_get_encoding`; `protocol.rs` is not in the
sources). -/
structure ProtocolBehavior (V : Type) where
  any_get_encoding : V → Except Error ConcreteMessage

/-- Rust `TermType::evaluate_symbolic` (the default trait method):
`PB::any_get_encoding(self.evaluate_lazy(&context)?)`. -/
def Term.evaluate_symbolic {M V : Type} (pb : ProtocolBehavior V)
    (t : Term M V) (context : TraceContext M V) : Except Error ConcreteMessage :=
  match t.evaluate_lazy context with
  | .ok data => pb.any_get_encoding data
  | .error e => .error e

/-- Rust `Term::evaluate` is `evaluate_symbolic`. -/
def Term.evaluate {M V : Type} (pb : ProtocolBehavior V) (t : Term M V)
    (context : TraceContext M V) : Except Error ConcreteMessage :=
  Term.evaluate_symbolic pb t context

def TermEval.evaluate_symbolic {M V : Type} (pb : ProtocolBehavior V)
    (t : TermEval M V) (context : TraceContext M V) :
    Except Error ConcreteMessage :=
  match t.evaluate_lazy context with
  | .ok data => pb.any_get_encoding data
  | .error e => .error e

mutual
/-- Rust `TermEval::all_payloads`: the payloads of a term, children first
(bottom-up), the node's own payload appended last (`rec` recurses into the
arguments of an application, then pushes the node's own payload if any). -/
def TermEval.all_payloads {M V : Type} : TermEval M V → List Payloads
  | .mk (.variable _) p => p.toList
  | .mk (.application _ args) p => allPayloadsList args ++ p.toList

/-- The loop `for t in args { rec(t, acc) }` of `all_payloads`. -/
def allPayloadsList {M V : Type} : List (TermEval M V) → List Payloads
  | [] => []
  | t :: ts => t.all_payloads ++ allPayloadsList ts
end

/-- Rust `search_sub_vec`: the first index at which `needle` occurs as a
contiguous subsequence of `haystack`. -/
def search_sub_vec : ConcreteMessage → ConcreteMessage → Option Nat
  | haystack, needle =>
    if haystack.length < needle.length then none
    else if haystack.take needle.length = needle then some 0
    else
      match haystack with
      | [] => none
      | _ :: rest => (search_sub_vec rest needle).map (· + 1)

/-- One splice step of `replace_bitstrings`: replace the first occurrence of
`payload_0` by `payload` (`Vec::splice`); when the anchor is absent the
buffer is left unchanged (the failure is only logged). -/
def spliceOne (to_replace : ConcreteMessage) (payload : Payloads) :
    ConcreteMessage :=
  match search_sub_vec to_replace payload.payload_0 with
  | some start_find =>
    to_replace.take start_find ++ payload.payload ++
      to_replace.drop (start_find + payload.payload_0.length)
  | none => to_replace

/-- Rust `replace_bitstrings`: splice every payload of the term, in
`all_payloads` order, into the buffer. -/
def replace_bitstrings {M V : Type} (to_replace : ConcreteMessage)
    (term : TermEval M V) : ConcreteMessage :=
  term.all_payloads.foldl spliceOne to_replace

/-- Rust `TermEval::evaluate`: the symbolic bytes with all payloads spliced
in. -/
def TermEval.evaluate {M V : Type} (pb : ProtocolBehavior V)
    (t : TermEval M V) (context : TraceContext M V) :
    Except Error ConcreteMessage :=
  match TermEval.evaluate_symbolic pb t context with
  | .ok to_replace => .ok (replace_bitstrings to_replace t)
  | .error e => .error e

mutual
/-- Rust `TermEval::erase_payloads_subterms`: on a variable node nothing
happens; on an application node the node's own payloads are cleared when
`is_subterm` holds and the children are erased recursively with
`is_subterm = true`. -/
def TermEval.erase_payloads_subterms {M V : Type} :
    TermEval M V → Bool → TermEval M V
  | .mk (.variable v) p, _ => .mk (.variable v) p
  | .mk (.application fd args) p, is_subterm =>
    .mk (.application fd (erasePayloadsList args))
      (if is_subterm then none else p)

/-- The loop `for t in args { t.erase_payloads_subterms(true) }`. -/
def erasePayloadsList {M V : Type} : List (TermEval M V) → List (TermEval M V)
  | [] => []
  | t :: ts => t.erase_payloads_subterms true :: erasePayloadsList ts
end

/-- Rust `TermEval::add_payloads`: install `(payload, payload)` at the node,
then erase payloads below. -/
def TermEval.add_payloads {M V : Type} (t : TermEval M V)
    (payload : ConcreteMessage) : TermEval M V :=
  TermEval.erase_payloads_subterms
    (TermEval.mk t.term (some { payload_0 := payload, payload := payload }))
    false

mutual
/-- Rust `append` (the `&Term` iterator): children are visited left to
right, each recursively, before the node itself is pushed. -/
def Term.toList {M V : Type} : Term M V → List (Term M V)
  | .variable v => [.variable v]
  | .application f subterms =>
    toListSubterms subterms ++ [.application f subterms]

/-- The loop `for subterm in subterms { append(&subterm.term, v) }`. -/
def toListSubterms {M V : Type} : List (TermEval M V) → List (Term M V)
  | [] => []
  | .mk t _ :: ts => t.toList ++ toListSubterms ts
end

/-- The node of a term addressed by a path of child indices (specification
device used to talk about node occurrences). -/
def Term.subtermAt {M V : Type} (t : Term M V) : List Nat → Option (Term M V)
  | [] => some t
  | i :: p =>
    match t with
    | .variable _ => none
    | .application _ args =>
      match args.get? i with
      | some te => te.term.subtermAt p
      | none => none

/-- The `TermEval` node addressed by a path of child indices. -/
def TermEval.subtermAt {M V : Type} (t : TermEval M V) :
    List Nat → Option (TermEval M V)
  | [] => some t
  | i :: p =>
    match t with
    | .mk (.variable _) _ => none
    | .mk (.application _ args) _ =>
      match args.get? i with
      | some te => te.subtermAt p
      | none => none

mutual
/-- The paths of all nodes of a term, in the post-order the `&Term` iterator
uses (specification device). -/
def Term.postPaths {M V : Type} : Term M V → List (List Nat)
  | .variable _ => [[]]
  | .application _ args => postPathsArgs 0 args ++ [[]]

/-- The paths of the nodes inside a list of children, the `k`-th child
contributing paths prefixed by `i + k`. -/
def postPathsArgs {M V : Type} : Nat → List (TermEval M V) → List (List Nat)
  | _, [] => []
  | i, .mk t _ :: ts =>
    (t.postPaths).map (fun p => i :: p) ++ postPathsArgs (i + 1) ts
end

mutual
/-- The paths of all `TermEval` nodes of a term, in the post-order the
`&TermEval` iterator (`append_eval`) uses. -/
def TermEval.postPaths {M V : Type} : TermEval M V → List (List Nat)
  | .mk (.variable _) _ => [[]]
  | .mk (.application _ args) _ => postPathsArgsE 0 args ++ [[]]

/-- The paths of the `TermEval` nodes inside a list of children. -/
def postPathsArgsE {M V : Type} : Nat → List (TermEval M V) → List (List Nat)
  | _, [] => []
  | i, te :: ts =>
    (te.postPaths).map (fun p => i :: p) ++ postPathsArgsE (i + 1) ts
end

mutual
/-- The paths of the payload-carrying nodes of a term, in the order
`all_payloads` visits them (specification device). -/
def TermEval.payloadPaths {M V : Type} : TermEval M V → List (List Nat)
  | .mk (.variable _) p => if p.isSome then [[]] else []
  | .mk (.application _ args) p =>
    payloadPathsArgs 0 args ++ (if p.isSome then [[]] else [])

/-- The payload paths inside a list of children. -/
def payloadPathsArgs {M V : Type} : Nat → List (TermEval M V) → List (List Nat)
  | _, [] => []
  | i, te :: ts =>
    (te.payloadPaths).map (fun p => i :: p) ++ payloadPathsArgs (i + 1) ts
end

/-- Path `p` addresses a strict ancestor of the node addressed by `q`:
`q` extends `p` by a nonempty suffix (specification device). -/
def pathAncestor (p q : List Nat) : Prop :=
  ∃ r, r ≠ [] ∧ q = p ++ r

mutual
/-- Every node of the term carries `payloads = None` — the term is fully
symbolic (specification device for C10). -/
def TermEval.fullySymbolic {M V : Type} : TermEval M V → Bool
  | .mk (.variable _) p => p.isNone
  | .mk (.application _ args) p => p.isNone && fullySymbolicList args

/-- All members of a list of children are fully symbolic. -/
def fullySymbolicList {M V : Type} : List (TermEval M V) → Bool
  | [] => true
  | te :: ts => te.fullySymbolic && fullySymbolicList ts
end

/-- Whether `needle` occurs in `s` starting at index `j` (specification
device for byte-string and string search). -/
def occursAt {α : Type} (s needle : List α) (j : Nat) : Prop :=
  (s.drop j).take needle.length = needle

/-- Rust `str::rfind` for a substring: the largest index at which `needle`
occurs in `s`. -/
def rfindSS : Str → Str → Option Nat
  | [], needle => if needle = [] then some 0 else none
  | c :: rest, needle =>
    match rfindSS rest needle with
    | some i => some (i + 1)
    | none => if (c :: rest).take needle.length = needle then some 0 else none

/-- The character test `|c| c != '<'` used by the `split('<')` embedding. -/
def notLtChar (c : Char) : Bool :=
  c ≠ '<'

/-- Rust `remove_prefix`, unfolded a bounded number of times.
`str.split('<').collect_tuple()` is `Some` exactly when the string contains
a single `'<'`, and then yields the pieces before and after it; the
embedding tests `count '<' = 1` and splits with `takeWhile`/`dropWhile`.
The `rfind("::")` arms keep only the text after the last `"::"`.  When the
piece after the `'<'` is empty (the string's single `'<'` is its final
character) the Rust slice `&generic[0..generic.len() - 1]` panics; the
panic is embedded as `none`.  The Rust recursion always recurses on a
strictly shorter string, so `str.length` rounds of unfolding suffice; the
explicit bound keeps the definition structurally recursive. -/
def remove_prefix_loop : Nat → Str → Option Str
  | 0, str => some str
  | fuel + 1, str =>
    if str.count '<' = 1 then
      let non_generic := str.takeWhile notLtChar
      let generic0 := (str.dropWhile notLtChar).drop 1
      if generic0.length = 0 then none
      else
        let generic := generic0.take (generic0.length - 1)
        (remove_prefix_loop fuel generic).map
          (fun stripped_generic =>
            (match rfindSS non_generic (':' :: ':' :: []) with
             | some pos => non_generic.drop (pos + 2)
             | none => non_generic) ++
            '<' :: stripped_generic ++ [ '>' ])
    else
      some
        (match rfindSS str (':' :: ':' :: []) with
         | some pos => str.drop (pos + 2)
         | none => str)

/-- Rust `remove_prefix`; `none` embeds the panic on a name whose single
`'<'` is its final character. -/
def remove_prefix (str : Str) : Option Str :=
  remove_prefix_loop str.length str

/-- Rust `str::replace`: replace every occurrence of `needle` by `repl`
(used by `remove_fn_prefix`).  An empty needle leaves the string unchanged
(never exercised: the needle is `"fn_"`). -/
def replaceSS (s needle repl : Str) : Str :=
  match s with
  | [] => []
  | c :: rest =>
    if h : needle = [] then c :: rest
    else if (c :: rest).take needle.length = needle then
      repl ++ replaceSS ((c :: rest).drop needle.length) needle repl
    else
      c :: replaceSS rest needle repl
termination_by s.length
decreasing_by
  · have : needle.length ≠ 0 := by
      intro hz
      exact h (List.length_eq_zero.mp hz)
    simp only [List.length_drop, List.length_cons]
    omega
  · simp

def remove_fn_prefix (s : Str) : Str :=
  replaceSS s ('f' :: 'n' :: '_' :: []) []

mutual
/-- Rust `Term::display_at_depth`: variables print as tabs plus the
variable; applications print the (module-prefix-stripped) function name,
the children at depth `+ 1` joined by `",\n"`, and `"-> ReturnType"`.
A `remove_prefix` panic (see there) propagates: the display is `none`. -/
def Term.display_at_depth {M V : Type} : Term M V → Nat → Option Str
  | .variable v, depth => some (List.replicate depth '\t' ++ v.display)
  | .application func args, depth =>
    let tabs := List.replicate depth '\t'
    match remove_prefix func.name, remove_prefix func.shape.return_type.name with
    | some op_str, some return_type =>
      if args.isEmpty then
        some (tabs ++ op_str ++ " -> ".toList ++ return_type)
      else
        (displayArgsList args (depth + 1)).map
          (fun args_strs =>
            tabs ++ op_str ++ "(\n".toList ++
              List.intercalate ",\n".toList args_strs ++
              "\n".toList ++ tabs ++ ") -> ".toList ++ return_type)
    | _, _ => none

/-- The children's displays, `args.iter().map(|arg|
arg.display_at_depth(depth + 1))`; a panic in any child propagates. -/
def displayArgsList {M V : Type} : List (TermEval M V) → Nat → Option (List Str)
  | [], _ => some []
  | te :: ts, depth =>
    match TermEval.display_at_depth te depth, displayArgsList ts depth with
    | some s, some ss => some (s :: ss)
    | _, _ => none

/-- Rust `TermEval::display_at_depth`: payload-carrying nodes are prefixed
by `BITSTRING_OF:`. -/
def TermEval.display_at_depth {M V : Type} : TermEval M V → Nat → Option Str
  | .mk t none, depth => t.display_at_depth depth
  | .mk t (some _), depth =>
    (t.display_at_depth depth).map
      (fun s => List.replicate depth '\t' ++ "BITSTRING_OF:\n".toList ++ s)
end

/-- Rust `MutationResult`. -/
inductive MutationResult where
  | mutated
  | skipped
deriving DecidableEq, Repr

/-- Modelled from the spec: a step's action is `Input(recipe)` or `Output`
(`trace.rs` is not in the sources). -/
inductive Action (M V : Type) where
  | input : TermEval M V → Action M V
  | output : Action M V

/-- Modelled from the spec: a step binds an agent to an action. -/
structure Step (M V : Type) where
  agent : AgentName
  action : Action M V

/-- Modelled from the spec: a trace is `(prior_traces, descriptors, steps)`;
the mutators only touch `steps`.  Descriptors are reduced to agent names. -/
inductive Trace (M V : Type) : Type where
  | mk : List (Trace M V) → List AgentName → List (Step M V) → Trace M V

def Trace.prior_traces {M V : Type} : Trace M V → List (Trace M V)
  | .mk p _ _ => p

def Trace.descriptors {M V : Type} : Trace M V → List AgentName
  | .mk _ d _ => d

def Trace.steps {M V : Type} : Trace M V → List (Step M V)
  | .mk _ _ s => s

def Trace.withSteps {M V : Type} : Trace M V → List (Step M V) → Trace M V
  | .mk p d _, s => .mk p d s

/-- Rust `SkipMutator::mutate`: with an empty steps list return `Skipped`,
otherwise remove the step at a random index.  `rand.between(0, length-1)`
is embedded as `r % length`. -/
def SkipMutator.mutate {M V : Type} (r : Nat) (trace : Trace M V) :
    MutationResult × Trace M V :=
  let steps := trace.steps
  let length := steps.length
  if length = 0 then (.skipped, trace)
  else (.mutated, trace.withSteps (steps.eraseIdx (r % length)))

/-- Rust `RepeatMutator::mutate`: with an empty steps list return `Skipped`,
otherwise insert a copy of a randomly chosen step at a random index.  The
two random draws are passed as `r_insert` and `r_choose`. -/
def RepeatMutator.mutate {M V : Type} (r_insert r_choose : Nat)
    (trace : Trace M V) : MutationResult × Trace M V :=
  let steps := trace.steps
  if h : steps.length = 0 then (.skipped, trace)
  else
    let insert_index := r_insert % steps.length
    let step := steps.get
      ⟨r_choose % steps.length, Nat.mod_lt _ (Nat.pos_of_ne_zero h)⟩
    (.mutated, trace.withSteps (steps.insertIdx insert_index step))

/-- Modelled from the spec: the process-wide signature is its list of
function shapes and shims. -/
structure Signature (V : Type) where
  functions : List (DynamicFunctionShape × (List V → Except FnError V))

/-- The site filter of `ReplaceMatchMutator::mutate`: an application whose
function has a different name but identical return and argument types. -/
def replaceMatchFilter {M V : Type} (requested_shape : DynamicFunctionShape) :
    Term M V → Bool
  | .variable _ => false
  | .application func _ =>
    decide (func.shape.name ≠ requested_shape.name) &&
    decide (func.shape.return_type = requested_shape.return_type) &&
    decide (func.shape.argument_types = requested_shape.argument_types)

/-- Replace the function symbol of the application at `path` (used to embed
the in-place `change_function` on the node `choose_term_mut` selected). -/
def TermEval.replaceFunAt {M V : Type} (t : TermEval M V) :
    List Nat → DynamicFunctionShape → (List V → Except FnError V) → TermEval M V
  | [], shape, dynamic_fn =>
    (match t with
     | .mk (.variable v) p => .mk (.variable v) p
     | .mk (.application func args) p =>
       .mk (.application (func.change_function shape dynamic_fn) args) p)
  | i :: rest, shape, dynamic_fn =>
    (match t with
     | .mk (.variable v) p => .mk (.variable v) p
     | .mk (.application func args) p =>
       match args.get? i with
       | some te =>
         .mk (.application func (args.set i (te.replaceFunAt rest shape dynamic_fn))) p
       | none => .mk (.application func args) p)

/-- The candidate sites of a recipe: the paths of its nodes whose term
satisfies the filter. -/
def recipeCandidates {M V : Type} (filter : Term M V → Bool)
    (recipe : TermEval M V) : List (List Nat) :=
  recipe.postPaths.filter
    (fun p =>
      match recipe.subtermAt p with
      | some d => filter d.term
      | none => false)

/-- Modelled from the spec: `choose_term_mut` (in the absent
`mutations_util`) draws uniformly over the nodes of the trace's input-step
recipes satisfying the filter; the embedding collects the addresses
`(step index, path)` of all satisfying nodes, in iteration order. -/
def candidateSites {M V : Type} (filter : Term M V → Bool)
    (trace : Trace M V) : List (Nat × List Nat) :=
  (trace.steps.enum.map
    (fun s =>
      match s.2.action with
      | .input recipe => (recipeCandidates filter recipe).map (fun p => (s.1, p))
      | .output => [])).flatten

/-- Apply the `ReplaceMatch` rewrite to a step's recipe (output steps are
never selected and are returned unchanged). -/
def Step.replaceRecipeAt {M V : Type} (st : Step M V) (path : List Nat)
    (shape : DynamicFunctionShape) (dynamic_fn : List V → Except FnError V) :
    Step M V :=
  match st.action with
  | .input recipe =>
    { st with action := .input (recipe.replaceFunAt path shape dynamic_fn) }
  | .output => st

/-- Apply the `ReplaceMatch` rewrite at one site of the trace. -/
def Trace.replaceFunAtSite {M V : Type} (trace : Trace M V)
    (site : Nat × List Nat) (shape : DynamicFunctionShape)
    (dynamic_fn : List V → Except FnError V) : Trace M V :=
  trace.withSteps
    (match trace.steps.get? site.1 with
     | some st =>
       trace.steps.set site.1 (st.replaceRecipeAt site.2 shape dynamic_fn)
     | none => trace.steps)

/-- Rust `ReplaceMatchMutator::mutate`: draw a function from the signature,
look for a random application node with a compatible shape but different
name, and swap the function symbol there, keeping the children.  The two
random draws are `r_fn` and `r_site`; the signature is nonempty (the
global `SIGNATURE` is; `rand.choose` is undefined on an empty slice). -/
def ReplaceMatchMutator.mutate {M V : Type} (r_fn r_site : Nat)
    (sig : Signature V) (hsig : sig.functions ≠ []) (trace : Trace M V) :
    MutationResult × Trace M V :=
  let requested := sig.functions.get
    ⟨r_fn % sig.functions.length,
     Nat.mod_lt _ (List.length_pos.mpr hsig)⟩
  let sites := candidateSites (M := M) (replaceMatchFilter requested.1) trace
  if h : sites.length = 0 then (.skipped, trace)
  else
    let site := sites.get
      ⟨r_site % sites.length, Nat.mod_lt _ (Nat.pos_of_ne_zero h)⟩
    (.mutated, trace.replaceFunAtSite site requested.1 requested.2)

/-- The root type shape of a step's recipe, when the step is an input. -/
def Step.rootShape {M V : Type} (st : Step M V) : Option TypeShape :=
  match st.action with
  | .input recipe => some recipe.get_type_shape
  | .output => none

/-- The `Matcher` capability: `matches` and `specificity`. -/
class Matcher (M : Type) where
  «matches» : M → M → Bool
  specificity : M → Nat

/-- The `Matcher` instance for `Option<T>` from `algebra/mod.rs`. -/
instance instMatcherOption {M : Type} [Matcher M] : Matcher (Option M) where
  «matches» self matcher :=
    match self, matcher with
    | some inner, some inner_matcher => Matcher.matches inner inner_matcher
    | some _, none => true
    | none, none => true
    | none, some _ => false
  specificity self :=
    match self with
    | some matcher => 1 + Matcher.specificity matcher
    | none => 0

/-- The trivial matcher. -/
structure AnyMatcher where
deriving DecidableEq, Repr

instance instMatcherAnyMatcher : Matcher AnyMatcher where
  «matches» _ _ := true
  specificity _ := 0

/-- Concrete pieces used by witnesses: a type shape. -/
def shapeW : TypeShape :=
  { tid := 0, name := "u32".toList }

/-- Concrete pieces used by witnesses: a variable of type `u32` with an
agent source and index 0. -/
def varW : Variable AnyMatcher :=
  { typ := shapeW
    query := { source := some (Source.agent 0), matcher := none, counter := 0 }
    resistant_id := 0 }

/-- Concrete pieces used by witnesses: a shim returning `0`. -/
def fnW : List Nat → Except FnError Nat :=
  fun _ => .ok 0

/-- Concrete pieces used by witnesses: the shape `fn_a() -> u32`. -/
def shapeA : DynamicFunctionShape :=
  { name := "fn_a".toList, argument_types := [], return_type := shapeW }

/-- Concrete pieces used by witnesses: the shape `fn_b() -> u32`. -/
def shapeB : DynamicFunctionShape :=
  { name := "fn_b".toList, argument_types := [], return_type := shapeW }

/-- Concrete pieces used by witnesses: the function symbol `fn_a`. -/
def funcA : Function Nat :=
  { shape := shapeA, dynamic_fn := fnW, resistant_id := 0 }

/-- Concrete pieces used by witnesses: a two-function signature. -/
def sigW : Signature Nat :=
  { functions := [(shapeA, fnW), (shapeB, fnW)] }

/-- Concrete pieces used by witnesses: an empty evaluation context. -/
def ctxW : TraceContext AnyMatcher Nat :=
  { find_variable := fun _ _ => none, find_claim := fun _ _ => none }

/-- Concrete pieces used by witnesses: an encoding that renders a value as a
one-byte message. -/
def pbW : ProtocolBehavior Nat :=
  { any_get_encoding := fun v => .ok [v] }

/-- Concrete pieces used by witnesses: a one-input-step trace whose recipe
is `fn_a()`. -/
def traceW : Trace AnyMatcher Nat :=
  .mk [] [0] [{ agent := 0, action := .input (.mk (.application funcA []) none) }]

/-- Concrete pieces used by witnesses: a trace with no steps. -/
def traceEmptyW : Trace AnyMatcher Nat :=
  .mk [] [0] []

/-- Concrete pieces used by witnesses: a function whose name keeps the
`fn_` naming convention and whose return type name carries nested generic
arguments with module prefixes. -/
def funcC8 : Function Nat :=
  { shape :=
      { name := "tls::fn_foo".toList
        argument_types := []
        return_type := { tid := 1, name := "m::A<n::B<o::C>>".toList } }
    dynamic_fn := fnW
    resistant_id := 0 }

/-- Concrete pieces used by witnesses: a variable node already carrying a
payload overlay. -/
def childC3 : TermEval AnyMatcher Nat :=
  .mk (.variable varW) (some { payload_0 := [1], payload := [2] })

/-- Concrete pieces used by witnesses: an application whose only child is the
payload-carrying variable node. -/
def termC3 : TermEval AnyMatcher Nat :=
  .mk (.application funcA [childC3]) none

end Puffin

namespace Puffin

theorem TermEval.term_mk {M V : Type} (t : Term M V) (p : Option Payloads) :
    (TermEval.mk t p).term = t := rfl

theorem TermEval.payloads_mk {M V : Type} (t : Term M V) (p : Option Payloads) :
    (TermEval.mk t p).payloads = p := rfl

theorem TermEval.size_eq {M V : Type} (t : TermEval M V) :
    t.size = if t.is_leaf then 1 else t.term.size := by
  cases t with
  | mk tm p => rfl

theorem sizeSubterms_eq_sum {M V : Type} (ts : List (TermEval M V)) :
    sizeSubterms ts = (ts.map TermEval.size).sum := by
  induction ts with
  | nil => rfl
  | cons t ts ih => simp [sizeSubterms, ih]

mutual
theorem term_one_le_size {M V : Type} (t : Term M V) : 1 ≤ t.size := by
  cases t with
  | «variable» v => exact le_refl 1
  | application f ts =>
    show 1 ≤ sizeSubterms ts + 1
    exact Nat.le_add_left 1 (sizeSubterms ts)

theorem termEval_one_le_size {M V : Type} (t : TermEval M V) : 1 ≤ t.size := by
  cases t with
  | mk tm p =>
    rw [TermEval.size]
    split
    · exact le_refl 1
    · exact term_one_le_size tm
end

theorem sizeSubterms_pos_of_ne_nil {M V : Type} (ts : List (TermEval M V))
    (h : ts ≠ []) : 1 ≤ sizeSubterms ts := by
  cases ts with
  | nil => exact absurd rfl h
  | cons t ts =>
    calc 1 ≤ t.size := termEval_one_le_size t
    _ ≤ t.size + sizeSubterms ts := Nat.le_add_right _ _
    _ = sizeSubterms (t :: ts) := rfl

/-- Claim C5 — every term has size at least one; the size is exactly one iff
the term is a leaf; variables and zero-argument applications have size one;
an application's size is one plus the sum of its children's sizes. -/
theorem claim_C5_size_leaf {M V : Type} :
    (∀ t : Term M V, 1 ≤ t.size) ∧
    (∀ t : Term M V, t.size = 1 ↔ t.is_leaf = true) ∧
    (∀ v : Variable M, (Term.variable (V := V) v).size = 1) ∧
    (∀ f : Function V, (Term.application (M := M) f []).size = 1) ∧
    (∀ (f : Function V) (args : List (TermEval M V)),
      (Term.application f args).size = 1 + (args.map TermEval.size).sum) := by
  refine ⟨term_one_le_size, ?_, ?_, ?_, ?_⟩
  · intro t
    cases t with
    | «variable» v => simp [Term.size, Term.is_leaf]
    | application f ts =>
      show sizeSubterms ts + 1 = 1 ↔ ts.isEmpty = true
      constructor
      · intro h
        have hz : sizeSubterms ts = 0 := by omega
        cases ts with
        | nil => rfl
        | cons t ts =>
          have := sizeSubterms_pos_of_ne_nil (t :: ts) (by simp)
          omega
      · intro h
        cases ts with
        | nil => rfl
        | cons t ts => simp [List.isEmpty] at h
  · intro v; rfl
  · intro f; rfl
  · intro f args
    show sizeSubterms args + 1 = 1 + (args.map TermEval.size).sum
    rw [sizeSubterms_eq_sum]
    omega

/-- Claim C9 — an `Option`-typed matcher query `None` is matched by every
value (including `None`); `Some(a).matches(Some(b))` is `a.matches(b)`;
`None.matches(Some(b))` is false; `AnyMatcher` matches everything with
specificity `0`; the specificity of `Some(m)` is `1 + m.specificity()` and
that of `None` is `0`. -/
theorem claim_C9_matcher {M : Type} [Matcher M] :
    (∀ x : Option M, Matcher.matches x none = true) ∧
    (∀ a b : M, Matcher.matches (some a) (some b) = Matcher.matches a b) ∧
    (∀ b : M, Matcher.matches (none : Option M) (some b) = false) ∧
    (∀ x y : AnyMatcher, Matcher.matches x y = true) ∧
    (∀ x : AnyMatcher, Matcher.specificity x = 0) ∧
    (∀ m : M, Matcher.specificity (some m) = 1 + Matcher.specificity m) ∧
    (Matcher.specificity (none : Option M) = 0) := by
  refine ⟨?_, ?_, ?_, ?_, ?_, ?_, rfl⟩
  · intro x; cases x <;> rfl
  · intro a b; rfl
  · intro b; rfl
  · intro x y; rfl
  · intro x; rfl
  · intro m; rfl

/-- Claim C7 — on a trace with an empty steps list, both the Skip and the
Repeat mutator return `Skipped` and leave the trace unchanged; on a
non-empty steps list they return `Mutated`. -/
theorem claim_C7_skip_repeat {M V : Type} :
    (∀ (trace : Trace M V) (r r1 r2 : Nat), trace.steps = [] →
      SkipMutator.mutate r trace = (.skipped, trace) ∧
      RepeatMutator.mutate r1 r2 trace = (.skipped, trace)) ∧
    (∀ (trace : Trace M V) (r r1 r2 : Nat), trace.steps ≠ [] →
      (SkipMutator.mutate r trace).1 = .mutated ∧
      (RepeatMutator.mutate r1 r2 trace).1 = .mutated) := by
  constructor
  · intro trace r r1 r2 h
    have hlen : trace.steps.length = 0 := by rw [h]; rfl
    constructor
    · simp [SkipMutator.mutate, hlen]
    · simp [RepeatMutator.mutate, hlen]
  · intro trace r r1 r2 h
    have hlen : trace.steps.length ≠ 0 := by
      intro hz
      exact h (List.length_eq_zero.mp hz)
    constructor
    · simp [SkipMutator.mutate, hlen]
    · simp [RepeatMutator.mutate, hlen]

mutual
theorem TermEval.all_payloads_nil {M V : Type} :
    ∀ t : TermEval M V, t.fullySymbolic = true → t.all_payloads = []
  | .mk (.variable v) p, h => by
    rw [TermEval.fullySymbolic] at h
    rw [TermEval.all_payloads]
    cases p with
    | none => rfl
    | some q => simp [Option.isNone] at h
  | .mk (.application f args) p, h => by
    rw [TermEval.fullySymbolic] at h
    simp only [Bool.and_eq_true] at h
    rw [TermEval.all_payloads, allPayloadsList_nil args h.2]
    cases p with
    | none => rfl
    | some q =>
      have := h.1
      simp [Option.isNone] at this

theorem allPayloadsList_nil {M V : Type} :
    ∀ ts : List (TermEval M V), fullySymbolicList ts = true →
      allPayloadsList ts = []
  | [], _ => rfl
  | t :: ts, h => by
    rw [fullySymbolicList] at h
    simp only [Bool.and_eq_true] at h
    rw [allPayloadsList, TermEval.all_payloads_nil t h.1,
      allPayloadsList_nil ts h.2]
    rfl
end

/-- Claim C10 — on a fully symbolic `TermEval` (all nodes have
`payloads = None`) `evaluate` coincides with `evaluate_symbolic`: the
splicing pass is a no-op; and for a plain `Term`, `evaluate` is
unconditionally `evaluate_symbolic`. -/
theorem claim_C10_evaluate_fully_symbolic {M V : Type} :
    (∀ (pb : ProtocolBehavior V) (t : TermEval M V) (context : TraceContext M V),
      t.fullySymbolic = true →
      TermEval.evaluate pb t context = TermEval.evaluate_symbolic pb t context) ∧
    (∀ (pb : ProtocolBehavior V) (t : Term M V) (context : TraceContext M V),
      Term.evaluate pb t context = Term.evaluate_symbolic pb t context) := by
  constructor
  · intro pb t context h
    rw [TermEval.evaluate]
    cases hsym : TermEval.evaluate_symbolic pb t context with
    | error e => rfl
    | ok buf =>
      unfold replace_bitstrings
      rw [TermEval.all_payloads_nil t h]
      rfl
  · intro pb t context
    rfl

/-- Witness for C10: a concrete fully symbolic term evaluates identically in
both modes. -/
theorem claim_C10_witness :
    (TermEval.mk (.application funcA []) none : TermEval AnyMatcher Nat).fullySymbolic = true ∧
    TermEval.evaluate pbW (.mk (.application funcA []) none) ctxW =
      TermEval.evaluate_symbolic pbW (.mk (.application funcA []) none) ctxW :=
  ⟨rfl, claim_C10_evaluate_fully_symbolic.1 pbW (.mk (.application funcA []) none) ctxW rfl⟩

theorem evaluateLazyArgs_of_forall₂ {M V : Type} (context : TraceContext M V) :
    ∀ (args : List (TermEval M V)) (vs : List V),
      List.Forall₂ (fun a val => a.term.evaluate_lazy context = Except.ok val) args vs →
      evaluateLazyArgs args context = .ok vs
  | [], [], _ => rfl
  | [], _ :: _, h => by cases h
  | _ :: _, [], h => by cases h
  | .mk t p :: as, val :: vs, h => by
    have h1 : t.evaluate_lazy context = .ok val := (List.forall₂_cons.mp h).1
    have h2 := (List.forall₂_cons.mp h).2
    rw [evaluateLazyArgs, h1, evaluateLazyArgs_of_forall₂ context as vs h2]

theorem evaluateLazyArgs_first_error {M V : Type} (context : TraceContext M V) :
    ∀ (pre : List (TermEval M V)) (te : TermEval M V)
      (post : List (TermEval M V)) (e : Error),
      (∀ a ∈ pre, ∃ val, a.term.evaluate_lazy context = Except.ok val) →
      te.term.evaluate_lazy context = .error e →
      evaluateLazyArgs (pre ++ te :: post) context = .error e
  | [], .mk t p, post, e, _, herr => by
    rw [List.nil_append, evaluateLazyArgs]
    rw [TermEval.term_mk] at herr
    rw [herr]
  | .mk t p :: pre, te, post, e, hok, herr => by
    obtain ⟨val, hval⟩ := hok (.mk t p) (List.mem_cons_self _ _)
    rw [TermEval.term_mk] at hval
    rw [List.cons_append, evaluateLazyArgs, hval,
      evaluateLazyArgs_first_error context pre te post e
        (fun a ha => hok a (List.mem_cons_of_mem _ ha)) herr]

/-- Claim C1 — `evaluate_lazy` resolves a variable through the knowledge
store, then the claim list, and otherwise fails with
`Term("Unable to find variable …")`; an application evaluates its arguments
left to right, returns the first argument error unchanged, and otherwise
invokes the function's shim, lifting its failure with `Fn`. -/
theorem claim_C1_evaluate_lazy {M V : Type} :
    (∀ (v : Variable M) (context : TraceContext M V) (d : V),
      context.find_variable v.typ v.query = some d →
      (Term.variable (V := V) v).evaluate_lazy context = .ok d) ∧
    (∀ (v : Variable M) (context : TraceContext M V) (d : V),
      context.find_variable v.typ v.query = none →
      context.find_claim v.query.agent_name v.typ = some d →
      (Term.variable (V := V) v).evaluate_lazy context = .ok d) ∧
    (∀ (v : Variable M) (context : TraceContext M V),
      context.find_variable v.typ v.query = none →
      context.find_claim v.query.agent_name v.typ = none →
      (Term.variable (V := V) v).evaluate_lazy context =
        .error (.term ("Unable to find variable ".toList ++ v.display ++ "!".toList))) ∧
    (∀ (f : Function V) (pre : List (TermEval M V)) (te : TermEval M V)
        (post : List (TermEval M V)) (context : TraceContext M V) (e : Error),
      (∀ a ∈ pre, ∃ val, a.term.evaluate_lazy context = Except.ok val) →
      te.term.evaluate_lazy context = .error e →
      (Term.application f (pre ++ te :: post)).evaluate_lazy context = .error e) ∧
    (∀ (f : Function V) (args : List (TermEval M V)) (vs : List V)
        (context : TraceContext M V),
      List.Forall₂ (fun a val => a.term.evaluate_lazy context = Except.ok val) args vs →
      (Term.application f args).evaluate_lazy context =
        (f.dynamic_fn vs).mapError Error.fn) := by
  refine ⟨?_, ?_, ?_, ?_, ?_⟩
  · intro v context d h
    rw [Term.evaluate_lazy, h]
  · intro v context d h1 h2
    rw [Term.evaluate_lazy, h1, h2]
  · intro v context h1 h2
    rw [Term.evaluate_lazy, h1, h2]
  · intro f pre te post context e hok herr
    rw [Term.evaluate_lazy, evaluateLazyArgs_first_error context pre te post e hok herr]
  · intro f args vs context h
    rw [Term.evaluate_lazy, evaluateLazyArgs_of_forall₂ context args vs h]
    show (match f.dynamic_fn vs with
          | Except.ok result => Except.ok result
          | Except.error e => Except.error (Error.fn e)) =
      Except.mapError Error.fn (f.dynamic_fn vs)
    cases f.dynamic_fn vs with
    | ok r => rfl
    | error e => rfl

/-- Witness for C1: scenario S5 — a lone variable over an empty context
evaluates to the "Unable to find variable …" error. -/
theorem claim_C1_witness :
    (Term.variable varW : Term AnyMatcher Nat).evaluate_lazy ctxW =
      .error (.term ("Unable to find variable ".toList ++ varW.display ++ "!".toList)) :=
  claim_C1_evaluate_lazy.2.2.1 varW ctxW rfl rfl

theorem TermEval.replaceFunAt_get_type_shape {M V : Type} :
    ∀ (t : TermEval M V) (path : List Nat) (shape : DynamicFunctionShape)
      (dynamic_fn : List V → Except FnError V),
      (∀ (f : Function V) (args : List (TermEval M V)) (p0 : Option Payloads),
        t.subtermAt path = some (.mk (.application f args) p0) →
        f.shape.return_type = shape.return_type) →
      (t.replaceFunAt path shape dynamic_fn).get_type_shape = t.get_type_shape := by
  intro t path shape dynamic_fn h
  cases path with
  | nil =>
    cases t with
    | mk tm p =>
      cases tm with
      | «variable» v => rfl
      | application f args =>
        have hret : f.shape.return_type = shape.return_type := h f args p rfl
        show shape.return_type = f.shape.return_type
        exact hret.symm
  | cons i rest =>
    cases t with
    | mk tm p =>
      cases tm with
      | «variable» v => rfl
      | application f args =>
        show TermEval.get_type_shape
          (match args.get? i with
           | some te =>
             .mk (.application f (args.set i (te.replaceFunAt rest shape dynamic_fn))) p
           | none => .mk (.application f args) p) =
          TermEval.get_type_shape (.mk (.application f args) p)
        cases hget : args.get? i with
        | some te => rfl
        | none => rfl

theorem candidateSites_spec {M V : Type} (filter : Term M V → Bool)
    (trace : Trace M V) :
    ∀ site ∈ candidateSites filter trace,
      ∃ st recipe d, trace.steps.get? site.1 = some st ∧
        st.action = Action.input recipe ∧
        recipe.subtermAt site.2 = some d ∧ filter d.term = true := by
  intro site hsite
  rw [candidateSites, List.mem_flatten] at hsite
  obtain ⟨l, hl, hsl⟩ := hsite
  rw [List.mem_map] at hl
  obtain ⟨⟨i, st⟩, hs, rfl⟩ := hl
  have hget : trace.steps.get? i = some st := List.mk_mem_enum_iff_get?.mp hs
  dsimp only at hsl
  cases hact : st.action with
  | output =>
    rw [hact] at hsl
    exact absurd hsl (List.not_mem_nil site)
  | input recipe =>
    rw [hact] at hsl
    rw [List.mem_map] at hsl
    obtain ⟨p, hp, rfl⟩ := hsl
    rw [recipeCandidates, List.mem_filter] at hp
    obtain ⟨-, hpred⟩ := hp
    cases hsub : recipe.subtermAt p with
    | none => rw [hsub] at hpred; cases hpred
    | some d =>
      rw [hsub] at hpred
      exact ⟨st, recipe, d, hget, hact, hsub, hpred⟩

theorem Trace.replaceFunAtSite_rootShape {M V : Type} (trace : Trace M V)
    (site : Nat × List Nat) (shape : DynamicFunctionShape)
    (dynamic_fn : List V → Except FnError V)
    (hcond : ∀ (st : Step M V) (recipe : TermEval M V),
      trace.steps.get? site.1 = some st → st.action = Action.input recipe →
      ∀ (f : Function V) (args : List (TermEval M V)) (p0 : Option Payloads),
        recipe.subtermAt site.2 = some (.mk (.application f args) p0) →
        f.shape.return_type = shape.return_type) :
    ∀ i, ((trace.replaceFunAtSite site shape dynamic_fn).steps.get? i).map Step.rootShape =
      (trace.steps.get? i).map Step.rootShape := by
  intro i
  unfold Trace.replaceFunAtSite
  cases hst : trace.steps.get? site.1 with
  | none =>
    cases trace with
    | mk pt ds s => rfl
  | some st =>
    obtain ⟨pt, ds, s⟩ := trace
    show Option.map Step.rootShape
        ((s.set site.1 (st.replaceRecipeAt site.2 shape dynamic_fn)).get? i) =
      Option.map Step.rootShape (s.get? i)
    have hs : (Trace.mk pt ds s : Trace M V).steps = s := rfl
    rw [hs] at hst
    by_cases hi : site.1 = i
    · subst hi
      rw [List.get?_set_eq, hst]
      show some (Step.rootShape (st.replaceRecipeAt site.2 shape dynamic_fn)) =
        some (Step.rootShape st)
      cases hact : st.action with
      | output =>
        unfold Step.replaceRecipeAt
        rw [hact]
      | input recipe =>
        unfold Step.replaceRecipeAt
        rw [hact]
        show some (Step.rootShape
            { st with action := .input (recipe.replaceFunAt site.2 shape dynamic_fn) }) =
          some (Step.rootShape st)
        unfold Step.rootShape
        rw [hact]
        show some (some ((recipe.replaceFunAt site.2 shape dynamic_fn).get_type_shape)) =
          some (some recipe.get_type_shape)
        rw [TermEval.replaceFunAt_get_type_shape recipe site.2 shape dynamic_fn
          (fun f args p0 hsub => hcond st recipe hst hact f args p0 hsub)]
    · rw [List.get?_set_ne _ _ hi]

/-- Claim C4 — whenever `ReplaceMatchMutator` returns `Mutated`, every
step's recipe keeps its root return type: the mutator only swaps an
application's function symbol for a signature function with a different
name but identical argument types and return type. -/
theorem claim_C4_replace_match_root_type {M V : Type} :
    ∀ (r_fn r_site : Nat) (sig : Signature V) (hsig : sig.functions ≠ [])
      (trace tr' : Trace M V),
      ReplaceMatchMutator.mutate r_fn r_site sig hsig trace = (.mutated, tr') →
      ∀ i, (tr'.steps.get? i).map Step.rootShape =
        (trace.steps.get? i).map Step.rootShape := by
  intro r_fn r_site sig hsig trace tr' h i
  rw [ReplaceMatchMutator.mutate] at h
  set requested := sig.functions.get
    ⟨r_fn % sig.functions.length, Nat.mod_lt _ (List.length_pos.mpr hsig)⟩ with hreq
  set sites := candidateSites (M := M) (replaceMatchFilter requested.1) trace with hsites
  by_cases hlen : sites.length = 0
  · rw [dif_pos hlen] at h
    cases h
  · rw [dif_neg hlen] at h
    have htr : tr' = trace.replaceFunAtSite
        (sites.get ⟨r_site % sites.length, Nat.mod_lt _ (Nat.pos_of_ne_zero hlen)⟩)
        requested.1 requested.2 := (congrArg Prod.snd h).symm
    set site := sites.get ⟨r_site % sites.length, Nat.mod_lt _ (Nat.pos_of_ne_zero hlen)⟩
      with hsitedef
    have hmem : site ∈ sites := by
      rw [hsitedef]
      exact List.get_mem sites _ _
    obtain ⟨st, recipe, d, hget, hact, hsub, hfil⟩ :=
      candidateSites_spec (replaceMatchFilter requested.1) trace site (hsites ▸ hmem)
    rw [htr]
    refine Trace.replaceFunAtSite_rootShape trace site requested.1 requested.2 ?_ i
    intro st' recipe' hget' hact' f args p0 hsub'
    rw [hget] at hget'
    cases hget'
    rw [hact] at hact'
    cases hact'
    rw [hsub] at hsub'
    cases hsub'
    have hterm : (TermEval.mk (Term.application f args) p0).term = Term.application f args := rfl
    rw [hterm] at hfil
    rw [replaceMatchFilter] at hfil
    simp only [Bool.and_eq_true, decide_eq_true_eq] at hfil
    exact hfil.1.2

/-- Witness for C4: on the concrete one-step trace, replacing `fn_a` by
`fn_b` fires and the root return type of step 0 is preserved. -/
theorem claim_C4_witness :
    (ReplaceMatchMutator.mutate 1 0 sigW (by simp [sigW]) traceW).1 = .mutated ∧
    (((ReplaceMatchMutator.mutate 1 0 sigW (by simp [sigW]) traceW).2.steps.get? 0).map
        Step.rootShape =
      (traceW.steps.get? 0).map Step.rootShape) := by
  have hfst : (ReplaceMatchMutator.mutate 1 0 sigW (by simp [sigW]) traceW).1 = .mutated := by
    rfl
  refine ⟨hfst, ?_⟩
  have hpair : ReplaceMatchMutator.mutate 1 0 sigW (by simp [sigW]) traceW =
      (.mutated, (ReplaceMatchMutator.mutate 1 0 sigW (by simp [sigW]) traceW).2) := by
    rw [← hfst]
  exact claim_C4_replace_match_root_type 1 0 sigW (by simp [sigW]) traceW _ hpair 0

theorem occursAt_length {α : Type} {s n : List α} {j : Nat}
    (h : occursAt s n j) : n.length ≤ s.length - j := by
  have hlen := congrArg List.length h
  rw [List.length_take, List.length_drop] at hlen
  omega

theorem search_sub_vec_some :
    ∀ (hay n : ConcreteMessage) (i : Nat),
      search_sub_vec hay n = some i →
      occursAt hay n i ∧ ∀ j, j < i → ¬ occursAt hay n j := by
  intro hay
  induction hay with
  | nil =>
    intro n i hs
    cases n with
    | nil =>
      have hx : search_sub_vec ([] : ConcreteMessage) [] = some 0 := rfl
      rw [hx] at hs
      have hi : i = 0 := (Option.some.inj hs).symm
      subst hi
      exact ⟨rfl, fun j hj => absurd hj (by omega)⟩
    | cons a as =>
      have hx : search_sub_vec ([] : ConcreteMessage) (a :: as) = none := by
        rw [search_sub_vec]
        simp
      rw [hx] at hs
      cases hs
  | cons c rest ih =>
    intro n i hs
    rw [search_sub_vec] at hs
    by_cases hlen : (c :: rest).length < n.length
    · rw [if_pos hlen] at hs
      cases hs
    · rw [if_neg hlen] at hs
      by_cases htake : (c :: rest).take n.length = n
      · rw [if_pos htake] at hs
        have hi : i = 0 := (Option.some.inj hs).symm
        subst hi
        refine ⟨?_, fun j hj => absurd hj (by omega)⟩
        show ((c :: rest).drop 0).take n.length = n
        simpa using htake
      · rw [if_neg htake] at hs
        cases hsr : search_sub_vec rest n with
        | none => rw [hsr] at hs; cases hs
        | some i' =>
          rw [hsr] at hs
          have hi : i = i' + 1 := (Option.some.inj hs).symm
          subst hi
          obtain ⟨h1, h2⟩ := ih n i' hsr
          refine ⟨h1, ?_⟩
          intro j hj
          cases j with
          | zero =>
            intro hocc
            exact htake (by simpa [occursAt] using hocc)
          | succ j' =>
            intro hocc
            exact h2 j' (by omega) hocc

theorem search_sub_vec_none :
    ∀ (hay n : ConcreteMessage),
      search_sub_vec hay n = none → ∀ j, ¬ occursAt hay n j := by
  intro hay
  induction hay with
  | nil =>
    intro n hs j hocc
    cases n with
    | nil =>
      have hx : search_sub_vec ([] : ConcreteMessage) [] = some 0 := rfl
      rw [hx] at hs
      cases hs
    | cons a as =>
      have hocc' : (List.drop j ([] : ConcreteMessage)).take (a :: as).length =
          a :: as := hocc
      rw [List.drop_nil] at hocc'
      simp at hocc'
  | cons c rest ih =>
    intro n hs j hocc
    rw [search_sub_vec] at hs
    by_cases hlen : (c :: rest).length < n.length
    · have := occursAt_length hocc
      omega
    · rw [if_neg hlen] at hs
      by_cases htake : (c :: rest).take n.length = n
      · rw [if_pos htake] at hs
        cases hs
      · rw [if_neg htake] at hs
        cases hsr : search_sub_vec rest n with
        | some i' => rw [hsr] at hs; cases hs
        | none =>
          cases j with
          | zero => exact htake (by simpa [occursAt] using hocc)
          | succ j' => exact ih n hsr j' hocc

theorem pathAncestor_cons {i : Nat} {p q : List Nat} :
    pathAncestor (i :: p) (i :: q) ↔ pathAncestor p q := by
  constructor
  · rintro ⟨r, hr, heq⟩
    exact ⟨r, hr, by injection heq⟩
  · rintro ⟨r, hr, rfl⟩
    exact ⟨r, hr, rfl⟩

theorem not_pathAncestor_cons_of_ne {i j : Nat} {p q : List Nat}
    (h : i ≠ j) : ¬ pathAncestor (i :: p) (j :: q) := by
  rintro ⟨r, hr, heq⟩
  injection heq with h1 h2
  exact h h1.symm

theorem not_pathAncestor_nil_right (p : List Nat) : ¬ pathAncestor p [] := by
  rintro ⟨r, hr, heq⟩
  have := List.append_eq_nil.mp heq.symm
  exact hr this.2

theorem mem_payloadPathsArgs {M V : Type} :
    ∀ (args : List (TermEval M V)) (i : Nat) (p : List Nat),
      p ∈ payloadPathsArgs i args ↔
        ∃ k q te, args.get? k = some te ∧ p = (i + k) :: q ∧
          q ∈ te.payloadPaths := by
  intro args
  induction args with
  | nil =>
    intro i p
    rw [payloadPathsArgs]
    simp
  | cons te ts ih =>
    intro i p
    rw [payloadPathsArgs, List.mem_append, List.mem_map]
    constructor
    · rintro (⟨q, hq, rfl⟩ | h)
      · exact ⟨0, q, te, rfl, by simp, hq⟩
      · obtain ⟨k, q, te', hget, rfl, hq⟩ := (ih (i + 1) p).mp h
        exact ⟨k + 1, q, te', hget,
          by rw [show i + (k + 1) = i + 1 + k from by omega], hq⟩
    · rintro ⟨k, q, te', hget, rfl, hq⟩
      cases k with
      | zero =>
        left
        have hte : te' = te := by
          have : some te' = some te := by simpa using hget.symm
          exact Option.some.inj this
        subst hte
        exact ⟨q, hq, by simp⟩
      | succ k' =>
        right
        refine (ih (i + 1) _).mpr ⟨k', q, te', by simpa using hget, ?_, hq⟩
        rw [show i + (k' + 1) = i + 1 + k' from by omega]

theorem head_mem_payloadPathsArgs {M V : Type} {args : List (TermEval M V)}
    {i : Nat} {p : List Nat} (h : p ∈ payloadPathsArgs i args) :
    ∃ j q, p = j :: q ∧ i ≤ j := by
  obtain ⟨k, q, te, hget, rfl, hq⟩ := (mem_payloadPathsArgs args i p).mp h
  exact ⟨i + k, q, rfl, by omega⟩

theorem mem_payloadPaths {M V : Type} :
    ∀ (p : List Nat) (te : TermEval M V),
      p ∈ te.payloadPaths ↔
        ∃ d, te.subtermAt p = some d ∧ d.payloads.isSome = true := by
  intro p
  induction p with
  | nil =>
    intro te
    have hsub : te.subtermAt [] = some te := rfl
    rw [hsub]
    have hiff : (∃ d, some te = some d ∧ d.payloads.isSome = true) ↔
        te.payloads.isSome = true := by
      constructor
      · rintro ⟨d, hd, hp⟩
        rw [← Option.some.inj hd] at hp
        exact hp
      · intro hp
        exact ⟨te, rfl, hp⟩
    rw [hiff]
    cases te with
    | mk tm pl =>
      cases tm with
      | «variable» v =>
        rw [TermEval.payloadPaths]
        cases pl with
        | none => simp [TermEval.payloads]
        | some q => simp [TermEval.payloads]
      | application f args =>
        rw [TermEval.payloadPaths, List.mem_append]
        have hnot : ¬ ([] : List Nat) ∈ payloadPathsArgs 0 args := by
          intro hmem
          obtain ⟨j, q, heq, _⟩ := head_mem_payloadPathsArgs hmem
          cases heq
        cases pl with
        | none => simp [TermEval.payloads, hnot]
        | some q => simp [TermEval.payloads, hnot]
  | cons i rest ih =>
    intro te
    cases te with
    | mk tm pl =>
      cases tm with
      | «variable» v =>
        have hsub : (TermEval.mk (Term.variable v) pl : TermEval M V).subtermAt
            (i :: rest) = none := rfl
        rw [TermEval.payloadPaths, hsub]
        constructor
        · intro h
          exfalso
          cases pl with
          | none => simp at h
          | some q =>
            simp at h
        · rintro ⟨d, hd, _⟩
          cases hd
      | application f args =>
        have hsub : TermEval.subtermAt (.mk (.application f args) pl) (i :: rest) =
            (match args.get? i with
             | some te' => te'.subtermAt rest
             | none => none) := rfl
        rw [TermEval.payloadPaths, List.mem_append, hsub]
        constructor
        · rintro (h | h)
          · obtain ⟨k, q, te', hget, heq, hq⟩ := (mem_payloadPathsArgs args 0 _).mp h
            have h1 : i = k := by
              injection heq with ha hb
              omega
            have h2 : rest = q := by
              injection heq with ha hb
            subst h1
            subst h2
            rw [hget]
            exact (ih te').mp hq
          · exfalso
            cases pl with
            | none => simp at h
            | some q => simp at h
        · rintro ⟨d, hd, hpay⟩
          cases hget : args.get? i with
          | none => rw [hget] at hd; cases hd
          | some te' =>
            rw [hget] at hd
            left
            exact (mem_payloadPathsArgs args 0 _).mpr
              ⟨i, rest, te', hget, by simp, (ih te').mpr ⟨d, hd, hpay⟩⟩

mutual
theorem payloadPaths_pairwise {M V : Type} :
    ∀ te : TermEval M V,
      List.Pairwise (fun p q => ¬ pathAncestor p q) te.payloadPaths
  | .mk (.variable v) pl => by
    rw [TermEval.payloadPaths]
    cases pl with
    | none => simp
    | some q => simp
  | .mk (.application f args) pl => by
    rw [TermEval.payloadPaths, List.pairwise_append]
    refine ⟨payloadPathsArgs_pairwise args 0, ?_, ?_⟩
    · cases pl with
      | none => simp
      | some q => simp
    · intro a ha b hb
      cases pl with
      | none => simp at hb
      | some q =>
        simp at hb
        subst hb
        exact not_pathAncestor_nil_right a

theorem payloadPathsArgs_pairwise {M V : Type} :
    ∀ (args : List (TermEval M V)) (i : Nat),
      List.Pairwise (fun p q => ¬ pathAncestor p q) (payloadPathsArgs i args)
  | [], _ => by rw [payloadPathsArgs]; exact List.Pairwise.nil
  | te :: ts, i => by
    rw [payloadPathsArgs, List.pairwise_append]
    refine ⟨?_, payloadPathsArgs_pairwise ts (i + 1), ?_⟩
    · rw [List.pairwise_map]
      exact (payloadPaths_pairwise te).imp
        (fun h hanc => h (pathAncestor_cons.mp hanc))
    · intro a ha b hb
      rw [List.mem_map] at ha
      obtain ⟨q, hq, rfl⟩ := ha
      obtain ⟨j, q', rfl, hj⟩ := head_mem_payloadPathsArgs hb
      exact not_pathAncestor_cons_of_ne (by omega)
end

mutual
theorem all_payloads_eq_filterMap {M V : Type} :
    ∀ te : TermEval M V,
      te.all_payloads = te.payloadPaths.filterMap
        (fun p => (te.subtermAt p).bind TermEval.payloads)
  | .mk (.variable v) pl => by
    rw [TermEval.all_payloads, TermEval.payloadPaths]
    cases pl with
    | none => rfl
    | some q => rfl
  | .mk (.application f args) pl => by
    rw [TermEval.all_payloads, TermEval.payloadPaths, List.filterMap_append]
    congr 1
    · exact allPayloadsList_eq_filterMap args f pl args 0 (fun k => by simp)
    · cases pl with
      | none => rfl
      | some q => rfl

theorem allPayloadsList_eq_filterMap {M V : Type} :
    ∀ (args : List (TermEval M V)) (f : Function V) (pl : Option Payloads)
      (args0 : List (TermEval M V)) (i : Nat),
      (∀ k, args.get? k = args0.get? (i + k)) →
      allPayloadsList args =
        (payloadPathsArgs i args).filterMap
          (fun p => ((TermEval.mk (.application f args0) pl).subtermAt p).bind
            TermEval.payloads)
  | [], _, _, _, _, _ => by rw [allPayloadsList, payloadPathsArgs]; rfl
  | te :: ts, f, pl, args0, i, hrel => by
    rw [allPayloadsList, payloadPathsArgs, List.filterMap_append,
      List.filterMap_map]
    congr 1
    · rw [all_payloads_eq_filterMap te]
      apply List.filterMap_congr
      intro q hq
      have hget : args0.get? i = some te := by
        have := hrel 0
        simpa using this.symm
      show (te.subtermAt q).bind TermEval.payloads =
        ((TermEval.mk (.application f args0) pl).subtermAt (i :: q)).bind
          TermEval.payloads
      have hsub : (TermEval.mk (.application f args0) pl).subtermAt (i :: q) =
          (match args0.get? i with
           | some te' => te'.subtermAt q
           | none => none) := rfl
      rw [hsub, hget]
    · refine allPayloadsList_eq_filterMap ts f pl args0 (i + 1) ?_
      intro k
      have := hrel (k + 1)
      rw [show i + (k + 1) = i + 1 + k from by omega] at this
      simpa using this
end

/-- Claim C2 — `evaluate` splices payloads bottom-up: in `all_payloads`
order no path is an ancestor of a later one (descendants first), the
spliced payloads are exactly those of the payload-carrying nodes, each
splice replaces the first occurrence of `payload_0`, a missing anchor
leaves the buffer unchanged, and `evaluate` still succeeds with the
spliced buffer. -/
theorem claim_C2_splice_bottom_up {M V : Type} :
    (∀ t : TermEval M V,
      t.all_payloads = t.payloadPaths.filterMap
        (fun p => (t.subtermAt p).bind TermEval.payloads) ∧
      List.Pairwise (fun p q => ¬ pathAncestor p q) t.payloadPaths ∧
      (∀ p, p ∈ t.payloadPaths ↔
        ∃ d, t.subtermAt p = some d ∧ d.payloads.isSome = true)) ∧
    (∀ (buf : ConcreteMessage) (pl : Payloads) (i : Nat),
      search_sub_vec buf pl.payload_0 = some i →
      occursAt buf pl.payload_0 i ∧
      (∀ j, j < i → ¬ occursAt buf pl.payload_0 j) ∧
      spliceOne buf pl =
        buf.take i ++ pl.payload ++ buf.drop (i + pl.payload_0.length)) ∧
    (∀ (buf : ConcreteMessage) (pl : Payloads),
      search_sub_vec buf pl.payload_0 = none →
      (∀ j, ¬ occursAt buf pl.payload_0 j) ∧ spliceOne buf pl = buf) ∧
    (∀ (pb : ProtocolBehavior V) (t : TermEval M V)
        (context : TraceContext M V) (buf : ConcreteMessage),
      TermEval.evaluate_symbolic pb t context = .ok buf →
      TermEval.evaluate pb t context =
        .ok (t.all_payloads.foldl spliceOne buf)) := by
  refine ⟨?_, ?_, ?_, ?_⟩
  · intro t
    exact ⟨all_payloads_eq_filterMap t, payloadPaths_pairwise t,
      fun p => mem_payloadPaths p t⟩
  · intro buf pl i hs
    obtain ⟨h1, h2⟩ := search_sub_vec_some buf pl.payload_0 i hs
    refine ⟨h1, h2, ?_⟩
    rw [spliceOne, hs]
  · intro buf pl hs
    refine ⟨search_sub_vec_none buf pl.payload_0 hs, ?_⟩
    rw [spliceOne, hs]
  · intro pb t context buf hsym
    rw [TermEval.evaluate, hsym]
    rfl

/-- Witness for C2: on the concrete buffer `[1,2,3]` the payload
`([2],[9,9])` anchors at index 1 and splices to `[1,9,9,3]`. -/
theorem claim_C2_witness :
    search_sub_vec [1, 2, 3] [2] = some 1 ∧
    occursAt [1, 2, 3] [2] 1 ∧
    (∀ j, j < 1 → ¬ occursAt [1, 2, 3] [2] j) ∧
    spliceOne [1, 2, 3] { payload_0 := [2], payload := [9, 9] } =
      [1] ++ [9, 9] ++ [3] := by
  have hs : search_sub_vec [1, 2, 3] [2] = some 1 := by rfl
  have h := (claim_C2_splice_bottom_up (M := AnyMatcher) (V := Nat)).2.1
    [1, 2, 3] { payload_0 := [2], payload := [9, 9] } 1 hs
  exact ⟨hs, h.1, h.2.1, h.2.2⟩

theorem mem_postPathsArgs {M V : Type} :
    ∀ (args : List (TermEval M V)) (i : Nat) (p : List Nat),
      p ∈ postPathsArgs i args ↔
        ∃ k q te, args.get? k = some te ∧ p = (i + k) :: q ∧
          q ∈ te.term.postPaths := by
  intro args
  induction args with
  | nil =>
    intro i p
    rw [postPathsArgs]
    simp
  | cons te ts ih =>
    intro i p
    cases te with
    | mk t pl =>
      rw [postPathsArgs, List.mem_append, List.mem_map]
      constructor
      · rintro (⟨q, hq, rfl⟩ | h)
        · exact ⟨0, q, .mk t pl, rfl, by simp, hq⟩
        · obtain ⟨k, q, te', hget, rfl, hq⟩ := (ih (i + 1) p).mp h
          exact ⟨k + 1, q, te', hget,
            by rw [show i + (k + 1) = i + 1 + k from by omega], hq⟩
      · rintro ⟨k, q, te', hget, rfl, hq⟩
        cases k with
        | zero =>
          left
          have hte : te' = .mk t pl := by
            have : some te' = some (TermEval.mk t pl) := by simpa using hget.symm
            exact Option.some.inj this
          subst hte
          exact ⟨q, hq, by simp⟩
        | succ k' =>
          right
          refine (ih (i + 1) _).mpr ⟨k', q, te', by simpa using hget, ?_, hq⟩
          rw [show i + (k' + 1) = i + 1 + k' from by omega]

theorem head_mem_postPathsArgs {M V : Type} {args : List (TermEval M V)}
    {i : Nat} {p : List Nat} (h : p ∈ postPathsArgs i args) :
    ∃ j q, p = j :: q ∧ i ≤ j := by
  obtain ⟨k, q, te, hget, rfl, hq⟩ := (mem_postPathsArgs args i p).mp h
  exact ⟨i + k, q, rfl, by omega⟩

theorem mem_postPaths {M V : Type} :
    ∀ (p : List Nat) (t : Term M V),
      p ∈ t.postPaths ↔ (t.subtermAt p).isSome = true := by
  intro p
  induction p with
  | nil =>
    intro t
    have hsub : t.subtermAt [] = some t := rfl
    rw [hsub]
    cases t with
    | «variable» v =>
      rw [Term.postPaths]
      simp
    | application f args =>
      rw [Term.postPaths]
      simp
  | cons i rest ih =>
    intro t
    cases t with
    | «variable» v =>
      have hsub : (Term.variable v : Term M V).subtermAt (i :: rest) = none := rfl
      rw [Term.postPaths, hsub]
      simp
    | application f args =>
      have hsub : (Term.application f args).subtermAt (i :: rest) =
          (match args.get? i with
           | some te' => te'.term.subtermAt rest
           | none => none) := rfl
      rw [Term.postPaths, List.mem_append, hsub]
      constructor
      · rintro (h | h)
        · obtain ⟨k, q, te', hget, heq, hq⟩ := (mem_postPathsArgs args 0 _).mp h
          have h1 : i = k := by
            injection heq with ha hb
            omega
          have h2 : rest = q := by
            injection heq with ha hb
          subst h1
          subst h2
          rw [hget]
          exact (ih te'.term).mp hq
        · simp at h
      · intro h
        cases hget : args.get? i with
        | none =>
          rw [hget] at h
          simp at h
        | some te' =>
          rw [hget] at h
          left
          exact (mem_postPathsArgs args 0 _).mpr
            ⟨i, rest, te', hget, by simp, (ih te'.term).mpr h⟩

mutual
theorem Term.postPaths_pairwise {M V : Type} :
    ∀ t : Term M V,
      List.Pairwise (fun p q => ¬ pathAncestor p q) t.postPaths
  | .variable v => by
    rw [Term.postPaths]
    simp
  | .application f args => by
    rw [Term.postPaths, List.pairwise_append]
    refine ⟨postPathsArgs_pairwise args 0, by simp, ?_⟩
    intro a ha b hb
    rw [List.mem_singleton] at hb
    subst hb
    exact not_pathAncestor_nil_right a

theorem postPathsArgs_pairwise {M V : Type} :
    ∀ (args : List (TermEval M V)) (i : Nat),
      List.Pairwise (fun p q => ¬ pathAncestor p q) (postPathsArgs i args)
  | [], _ => by rw [postPathsArgs]; exact List.Pairwise.nil
  | .mk t pl :: ts, i => by
    rw [postPathsArgs, List.pairwise_append]
    refine ⟨?_, postPathsArgs_pairwise ts (i + 1), ?_⟩
    · rw [List.pairwise_map]
      exact (Term.postPaths_pairwise t).imp
        (fun h hanc => h (pathAncestor_cons.mp hanc))
    · intro a ha b hb
      rw [List.mem_map] at ha
      obtain ⟨q, hq, rfl⟩ := ha
      obtain ⟨j, q', rfl, hj⟩ := head_mem_postPathsArgs hb
      exact not_pathAncestor_cons_of_ne (by omega)
end

mutual
theorem Term.postPaths_nodup {M V : Type} :
    ∀ t : Term M V, t.postPaths.Nodup
  | .variable v => by
    rw [Term.postPaths]
    simp
  | .application f args => by
    rw [Term.postPaths, List.nodup_append]
    refine ⟨postPathsArgs_nodup args 0, by simp, ?_⟩
    intro a ha hb
    rw [List.mem_singleton] at hb
    subst hb
    obtain ⟨j, q, heq, _⟩ := head_mem_postPathsArgs ha
    cases heq

theorem postPathsArgs_nodup {M V : Type} :
    ∀ (args : List (TermEval M V)) (i : Nat),
      (postPathsArgs i args).Nodup
  | [], _ => by rw [postPathsArgs]; exact List.Pairwise.nil
  | .mk t pl :: ts, i => by
    rw [postPathsArgs, List.nodup_append]
    refine ⟨?_, postPathsArgs_nodup ts (i + 1), ?_⟩
    · exact (Term.postPaths_nodup t).map
        (fun a b hab => by injection hab)
    · intro a ha hb
      rw [List.mem_map] at ha
      obtain ⟨q, hq, rfl⟩ := ha
      obtain ⟨j, q', heq, hj⟩ := head_mem_postPathsArgs hb
      injection heq with h1 h2
      omega
end

mutual
theorem Term.toList_eq_filterMap {M V : Type} :
    ∀ t : Term M V, t.toList = t.postPaths.filterMap t.subtermAt
  | .variable v => by
    rw [Term.toList, Term.postPaths]
    rfl
  | .application f args => by
    rw [Term.toList, Term.postPaths, List.filterMap_append]
    have h2 : List.filterMap (Term.application f args).subtermAt [[]] =
        [Term.application f args] := rfl
    rw [h2, toListSubterms_eq_filterMap args f args 0 (fun k => by simp)]

theorem toListSubterms_eq_filterMap {M V : Type} :
    ∀ (args : List (TermEval M V)) (f : Function V)
      (args0 : List (TermEval M V)) (i : Nat),
      (∀ k, args.get? k = args0.get? (i + k)) →
      toListSubterms args =
        (postPathsArgs i args).filterMap (Term.application f args0).subtermAt
  | [], _, _, _, _ => by simp [toListSubterms, postPathsArgs]
  | .mk t pl :: ts, f, args0, i, hrel => by
    rw [toListSubterms, postPathsArgs, List.filterMap_append, List.filterMap_map]
    congr 1
    · rw [Term.toList_eq_filterMap t]
      apply List.filterMap_congr
      intro q hq
      have hget : args0.get? i = some (.mk t pl) := by
        have := hrel 0
        simpa using this.symm
      show t.subtermAt q = (Term.application f args0).subtermAt (i :: q)
      have hsub : (Term.application f args0).subtermAt (i :: q) =
          (match args0.get? i with
           | some te' => te'.term.subtermAt q
           | none => none) := rfl
      rw [hsub, hget]
      rfl
    · refine toListSubterms_eq_filterMap ts f args0 (i + 1) ?_
      intro k
      have := hrel (k + 1)
      rw [show i + (k + 1) = i + 1 + k from by omega] at this
      simpa using this
end

theorem Term.postPaths_getLast {M V : Type} :
    ∀ t : Term M V, t.postPaths.getLast? = some []
  | .variable v => by rw [Term.postPaths]; rfl
  | .application f args => by
    rw [Term.postPaths]
    exact List.getLast?_concat _

/-- Claim C6 — iterating a `Term` yields every node exactly once in
post-order: the yielded list is the nodes at the post-order path list, that
path list contains each valid path exactly once, no path precedes a path it
is a strict ancestor of (descendants come first, left to right), and the
root (the empty path) comes last. -/
theorem claim_C6_iterator_postorder {M V : Type} :
    ∀ t : Term M V,
      t.toList = t.postPaths.filterMap t.subtermAt ∧
      (∀ p, p ∈ t.postPaths ↔ (t.subtermAt p).isSome = true) ∧
      t.postPaths.Nodup ∧
      List.Pairwise (fun p q => ¬ pathAncestor p q) t.postPaths ∧
      t.postPaths.getLast? = some [] := by
  intro t
  exact ⟨Term.toList_eq_filterMap t, fun p => mem_postPaths p t,
    Term.postPaths_nodup t, Term.postPaths_pairwise t,
    Term.postPaths_getLast t⟩

theorem erasePayloadsList_get? {M V : Type} :
    ∀ (args : List (TermEval M V)) (i : Nat),
      (erasePayloadsList args).get? i =
        (args.get? i).map (fun t => t.erase_payloads_subterms true)
  | [], _ => rfl
  | t :: ts, 0 => rfl
  | t :: ts, i + 1 => erasePayloadsList_get? ts i

theorem eraseTrue_subterm_app_none {M V : Type} :
    ∀ (path : List Nat) (te d : TermEval M V),
      (te.erase_payloads_subterms true).subtermAt path = some d →
      ∀ (f : Function V) (args : List (TermEval M V)),
        d.term = Term.application f args → d.payloads = none := by
  intro path
  induction path with
  | nil =>
    intro te d h f args hterm
    cases te with
    | mk tm p =>
      cases tm with
      | «variable» v =>
        have hd : d = .mk (.variable v) p := by
          rw [TermEval.erase_payloads_subterms] at h
          exact (Option.some.inj h).symm
        rw [hd] at hterm
        exact absurd hterm (by intro hx; cases hx)
      | application fd args0 =>
        have hd : d = .mk (.application fd (erasePayloadsList args0)) none := by
          rw [TermEval.erase_payloads_subterms] at h
          exact (Option.some.inj h).symm
        rw [hd]
        rfl
  | cons i rest ih =>
    intro te d h f args hterm
    cases te with
    | mk tm p =>
      cases tm with
      | «variable» v =>
        rw [TermEval.erase_payloads_subterms] at h
        cases h
      | application fd args0 =>
        rw [TermEval.erase_payloads_subterms] at h
        have h' : (match (erasePayloadsList args0).get? i with
            | some te' => te'.subtermAt rest
            | none => none) = some d := h
        rw [erasePayloadsList_get? args0 i] at h'
        cases hg : args0.get? i with
        | none => rw [hg] at h'; cases h'
        | some a =>
          rw [hg] at h'
          exact ih a d h' f args hterm

/-- Counterexample to C3 as stated: after `add_payloads`, a strict
descendant whose term is a `Variable` keeps its previous payloads —
`erase_payloads_subterms` does nothing on variable nodes. -/
theorem claim_C3_counterexample :
    (termC3.add_payloads [5]).payloads =
      some { payload_0 := [5], payload := [5] } ∧
    (termC3.add_payloads [5]).subtermAt [0] = some childC3 ∧
    childC3.payloads = some { payload_0 := [1], payload := [2] } ∧
    some ({ payload_0 := [1], payload := [2] } : Payloads) ≠ none := by
  refine ⟨rfl, rfl, rfl, ?_⟩
  intro hx
  cases hx

/-- Claim C3 (amended) — after `t.add_payloads(p)` the root carries the
payload pair `(p, p)`, and every strict descendant whose term is an
`Application` has `payloads = None`; descendants whose term is a `Variable`
are not touched and may keep a previous payload. -/
theorem claim_C3_add_payloads {M V : Type} :
    ∀ (te : TermEval M V) (payload : ConcreteMessage),
      (te.add_payloads payload).payloads =
        some { payload_0 := payload, payload := payload } ∧
      ∀ (path : List Nat) (d : TermEval M V), path ≠ [] →
        (te.add_payloads payload).subtermAt path = some d →
        ∀ (f : Function V) (args : List (TermEval M V)),
          d.term = Term.application f args → d.payloads = none := by
  intro te payload
  constructor
  · rw [TermEval.add_payloads]
    cases te with
    | mk tm p =>
      cases tm with
      | «variable» v => rfl
      | application fd args0 => rfl
  · intro path d hne h f args hterm
    rw [TermEval.add_payloads] at h
    cases path with
    | nil => exact absurd rfl hne
    | cons i rest =>
      cases te with
      | mk tm p =>
        rw [TermEval.term_mk] at h
        cases tm with
        | «variable» v =>
          rw [TermEval.erase_payloads_subterms] at h
          cases h
        | application fd args0 =>
          rw [TermEval.erase_payloads_subterms] at h
          have h' : (match (erasePayloadsList args0).get? i with
              | some te' => te'.subtermAt rest
              | none => none) = some d := h
          rw [erasePayloadsList_get? args0 i] at h'
          cases hg : args0.get? i with
          | none => rw [hg] at h'; cases h'
          | some a =>
            rw [hg] at h'
            exact eraseTrue_subterm_app_none rest a d h' f args hterm

/-- Witness for the amended C3: at the concrete counterexample term the root
carries `([5],[5])` and the (application-termed) root is the only
application node; its variable child is exempt. -/
theorem claim_C3_witness :
    (termC3.add_payloads [5]).payloads =
      some { payload_0 := [5], payload := [5] } :=
  (claim_C3_add_payloads termC3 [5]).1

/-- Witness for C7: the concrete empty trace is skipped unchanged, and the
concrete one-step trace is mutated. -/
theorem claim_C7_witness :
    (traceEmptyW.steps = [] ∧
      SkipMutator.mutate 0 traceEmptyW = (.skipped, traceEmptyW) ∧
      RepeatMutator.mutate 0 0 traceEmptyW = (.skipped, traceEmptyW)) ∧
    (traceW.steps ≠ [] ∧
      (SkipMutator.mutate 0 traceW).1 = .mutated ∧
      (RepeatMutator.mutate 0 0 traceW).1 = .mutated) := by
  constructor
  · exact ⟨rfl, (claim_C7_skip_repeat.1 traceEmptyW 0 0 0 rfl)⟩
  · have hne : traceW.steps ≠ [] := by
      intro h
      exact List.noConfusion h
    exact ⟨hne, claim_C7_skip_repeat.2 traceW 0 0 0 hne⟩

theorem rfindSS_none :
    ∀ (s n : Str), rfindSS s n = none → ∀ j, ¬ occursAt s n j := by
  intro s
  induction s with
  | nil =>
    intro n hs j hocc
    rw [rfindSS] at hs
    by_cases hn : n = []
    · rw [if_pos hn] at hs
      cases hs
    · have hocc' : (List.drop j ([] : Str)).take n.length = n := hocc
      rw [List.drop_nil] at hocc'
      simp at hocc'
      exact hn hocc'
  | cons c rest ih =>
    intro n hs j hocc
    rw [rfindSS] at hs
    cases hr : rfindSS rest n with
    | some i' => rw [hr] at hs; cases hs
    | none =>
      rw [hr] at hs
      by_cases htake : (c :: rest).take n.length = n
      · rw [if_pos htake] at hs
        cases hs
      · cases j with
        | zero => exact htake hocc
        | succ j' => exact ih n hr j' hocc

theorem rfindSS_some :
    ∀ (s n : Str) (i : Nat), n ≠ [] → rfindSS s n = some i →
      occursAt s n i ∧ ∀ j, i < j → ¬ occursAt s n j := by
  intro s
  induction s with
  | nil =>
    intro n i hn hs
    rw [rfindSS, if_neg hn] at hs
    cases hs
  | cons c rest ih =>
    intro n i hn hs
    rw [rfindSS] at hs
    cases hr : rfindSS rest n with
    | some i' =>
      rw [hr] at hs
      have hi : i = i' + 1 := (Option.some.inj hs).symm
      subst hi
      obtain ⟨h1, h2⟩ := ih n i' hn hr
      refine ⟨h1, ?_⟩
      intro j hj hocc
      cases j with
      | zero => omega
      | succ j' => exact h2 j' (by omega) hocc
    | none =>
      rw [hr] at hs
      by_cases htake : (c :: rest).take n.length = n
      · rw [if_pos htake] at hs
        have hi : i = 0 := (Option.some.inj hs).symm
        subst hi
        refine ⟨htake, ?_⟩
        intro j hj hocc
        cases j with
        | zero => omega
        | succ j' => exact rfindSS_none rest n hr j' hocc
      · rw [if_neg htake] at hs
        cases hs

theorem rfindSS_ge :
    ∀ (s n : Str) (i : Nat), n ≠ [] → occursAt s n i →
      ∃ k, rfindSS s n = some k ∧ i ≤ k := by
  intro s
  induction s with
  | nil =>
    intro n i hn hocc
    exfalso
    have hocc' : (List.drop i ([] : Str)).take n.length = n := hocc
    rw [List.drop_nil] at hocc'
    simp at hocc'
    exact hn hocc'
  | cons c rest ih =>
    intro n i hn hocc
    rw [rfindSS]
    cases hr : rfindSS rest n with
    | some k' =>
      cases i with
      | zero => exact ⟨k' + 1, rfl, by omega⟩
      | succ i' =>
        obtain ⟨k'', hk, hle⟩ := ih n i' hn hocc
        rw [hr] at hk
        have hkk : k'' = k' := (Option.some.inj hk).symm
        subst hkk
        exact ⟨k'' + 1, rfl, by omega⟩
    | none =>
      cases i with
      | zero =>
        have htake : (c :: rest).take n.length = n := hocc
        rw [if_pos htake]
        exact ⟨0, rfl, le_refl 0⟩
      | succ i' =>
        exfalso
        exact rfindSS_none rest n hr i' hocc

theorem remove_prefix_loop_nil :
    ∀ fuel : Nat, remove_prefix_loop fuel [] = some []
  | 0 => rfl
  | fuel + 1 => rfl

theorem remove_prefix_loop_succ (fuel : Nat) (str : Str) :
    remove_prefix_loop (fuel + 1) str =
      if str.count '<' = 1 then
        if ((str.dropWhile notLtChar).drop 1).length = 0 then none
        else
          (remove_prefix_loop fuel
            (((str.dropWhile notLtChar).drop 1).take
              (((str.dropWhile notLtChar).drop 1).length - 1))).map
            (fun stripped_generic =>
              (match rfindSS (str.takeWhile notLtChar) (':' :: ':' :: []) with
               | some pos => (str.takeWhile notLtChar).drop (pos + 2)
               | none => str.takeWhile notLtChar) ++
              '<' :: stripped_generic ++ [ '>' ])
      else
        some
          (match rfindSS str (':' :: ':' :: []) with
           | some pos => str.drop (pos + 2)
           | none => str) := rfl

theorem count_eq_zero_of_not_mem_char {s : Str} (h : ∀ x ∈ s, x ≠ '<') :
    s.count '<' = 0 :=
  List.count_eq_zero.mpr (fun hmem => h '<' hmem rfl)

theorem remove_prefix_loop_fuel :
    ∀ (fuel fuel' : Nat) (str : Str), str.length ≤ fuel → str.length ≤ fuel' →
      remove_prefix_loop fuel str = remove_prefix_loop fuel' str := by
  intro fuel
  induction fuel with
  | zero =>
    intro fuel' str h h'
    have hstr : str = [] := List.length_eq_zero.mp (by omega)
    subst hstr
    rw [remove_prefix_loop_nil, remove_prefix_loop_nil]
  | succ k ih =>
    intro fuel' str h h'
    cases fuel' with
    | zero =>
      have hstr : str = [] := List.length_eq_zero.mp (by omega)
      subst hstr
      rw [remove_prefix_loop_nil, remove_prefix_loop_nil]
    | succ k' =>
      rw [remove_prefix_loop_succ, remove_prefix_loop_succ]
      by_cases hc : str.count '<' = 1
      · rw [if_pos hc, if_pos hc]
        by_cases hg0 : ((str.dropWhile notLtChar).drop 1).length = 0
        · rw [if_pos hg0, if_pos hg0]
        · rw [if_neg hg0, if_neg hg0]
          have hne : str ≠ [] := by
            intro hb
            rw [hb] at hc
            simp [List.count] at hc
          have h1 : (str.dropWhile notLtChar).length ≤ str.length :=
            (str.dropWhile_suffix notLtChar).length_le
          have h4 : 1 ≤ str.length := by
            cases str with
            | nil => exact absurd rfl hne
            | cons c cs => simp
          have hglen :
              (((str.dropWhile notLtChar).drop 1).take
                (((str.dropWhile notLtChar).drop 1).length - 1)).length ≤
                str.length - 1 := by
            simp only [List.length_take, List.length_drop]
            omega
          rw [ih k'
            (((str.dropWhile notLtChar).drop 1).take
              (((str.dropWhile notLtChar).drop 1).length - 1))
            (by omega) (by omega)]
      · rw [if_neg hc, if_neg hc]

theorem takeWhile_ne_append :
    ∀ (a rest : Str), (∀ x ∈ a, x ≠ '<') →
      (a ++ '<' :: rest).takeWhile notLtChar = a
  | [], rest, _ => by
    rw [List.nil_append, List.takeWhile_cons, if_neg (by simp [notLtChar])]
  | c :: a', rest, h => by
    have hc : c ≠ '<' := h c (List.mem_cons_self _ _)
    rw [List.cons_append, List.takeWhile_cons, if_pos (by simp [notLtChar, hc]),
      takeWhile_ne_append a' rest (fun x hx => h x (List.mem_cons_of_mem _ hx))]

theorem dropWhile_ne_append :
    ∀ (a rest : Str), (∀ x ∈ a, x ≠ '<') →
      (a ++ '<' :: rest).dropWhile notLtChar = '<' :: rest
  | [], rest, _ => by
    rw [List.nil_append, List.dropWhile_cons, if_neg (by simp [notLtChar])]
  | c :: a', rest, h => by
    have hc : c ≠ '<' := h c (List.mem_cons_self _ _)
    rw [List.cons_append, List.dropWhile_cons, if_pos (by simp [notLtChar, hc]),
      dropWhile_ne_append a' rest (fun x hx => h x (List.mem_cons_of_mem _ hx))]

theorem remove_prefix_fallback :
    ∀ s : Str, s.count '<' ≠ 1 →
      remove_prefix s =
        some (match rfindSS s (':' :: ':' :: []) with
              | some pos => s.drop (pos + 2)
              | none => s) := by
  intro s hs
  unfold remove_prefix
  cases hl : s.length with
  | zero =>
    have hnil : s = [] := List.length_eq_zero.mp hl
    subst hnil
    rw [remove_prefix_loop_nil]
    rfl
  | succ k =>
    rw [remove_prefix_loop_succ]
    rw [if_neg hs]

theorem remove_prefix_no_lt (s : Str) (hs : ∀ x ∈ s, x ≠ '<') :
    remove_prefix s =
      some (match rfindSS s (':' :: ':' :: []) with
            | some pos => s.drop (pos + 2)
            | none => s) :=
  remove_prefix_fallback s (by rw [count_eq_zero_of_not_mem_char hs]; omega)

theorem remove_prefix_strip :
    ∀ a b : Str, (∀ x ∈ a, x ≠ '<') → (∀ x ∈ b, x ≠ '<') →
      (∀ j, ¬ occursAt b (':' :: ':' :: []) j) → b.head? ≠ some ':' →
      remove_prefix (a ++ ':' :: ':' :: b) = some b := by
  intro a b ha hb hocc hhead
  have hall : ∀ x ∈ a ++ ':' :: ':' :: b, x ≠ '<' := by
    intro x hx
    rw [List.mem_append] at hx
    cases hx with
    | inl hx => exact ha x hx
    | inr hx =>
      rw [List.mem_cons] at hx
      cases hx with
      | inl hx => subst hx; intro hcc; cases hcc
      | inr hx =>
        rw [List.mem_cons] at hx
        cases hx with
        | inl hx => subst hx; intro hcc; cases hcc
        | inr hx => exact hb x hx
  rw [remove_prefix_no_lt _ hall]
  have hoccA : occursAt (a ++ ':' :: ':' :: b) (':' :: ':' :: []) a.length := by
    show ((a ++ ':' :: ':' :: b).drop a.length).take 2 = ':' :: ':' :: []
    rw [List.drop_left]
    rfl
  have hnotAfter : ∀ j, a.length < j →
      ¬ occursAt (a ++ ':' :: ':' :: b) (':' :: ':' :: []) j := by
    intro j hj hocc'
    have hocc'' : ((a ++ ':' :: ':' :: b).drop j).take 2 = ':' :: ':' :: [] := hocc'
    have hj' : j = a.length + (j - a.length) := by omega
    rw [hj', List.drop_append] at hocc''
    cases hd : j - a.length with
    | zero => omega
    | succ m =>
      rw [hd] at hocc''
      cases m with
      | zero =>
        cases b with
        | nil => cases hocc''
        | cons b0 bs =>
          have hb0 : b0 = ':' := by
            have := congrArg (fun l => l.get? 1) hocc''
            simpa using this
          subst hb0
          exact hhead rfl
      | succ m' =>
        exact hocc (m' ) (by
          show (b.drop m').take 2 = ':' :: ':' :: []
          have hstep : List.drop (m' + 1 + 1) (':' :: ':' :: b) = b.drop m' := rfl
          rw [hstep] at hocc''
          exact hocc'')
  obtain ⟨k, hk, hge⟩ :=
    rfindSS_ge (a ++ ':' :: ':' :: b) (':' :: ':' :: []) a.length
      (by intro hcc; cases hcc) hoccA
  obtain ⟨hocck, _⟩ :=
    rfindSS_some (a ++ ':' :: ':' :: b) (':' :: ':' :: []) k
      (by intro hcc; cases hcc) hk
  have hkeq : k = a.length := by
    rcases Nat.lt_or_ge a.length k with hlt | hge'
    · exact absurd hocck (hnotAfter k hlt)
    · omega
  subst hkeq
  rw [hk]
  show some ((a ++ ':' :: ':' :: b).drop (a.length + 2)) = some b
  rw [List.drop_append]
  rfl

theorem remove_prefix_generic :
    ∀ s g ps pg : Str, (∀ x ∈ s, x ≠ '<') → (∀ x ∈ g, x ≠ '<') →
      remove_prefix s = some ps → remove_prefix g = some pg →
      remove_prefix (s ++ '<' :: (g ++ [ '>' ])) =
        some (ps ++ '<' :: pg ++ [ '>' ]) := by
  intro s g ps pg hs hg hps hpg
  have h1 : s.count '<' = 0 := count_eq_zero_of_not_mem_char hs
  have h2 : g.count '<' = 0 := count_eq_zero_of_not_mem_char hg
  have hcount : (s ++ '<' :: (g ++ [ '>' ])).count '<' = 1 := by
    simp [List.count_append, List.count_cons, h1, h2]
  rw [ remove_prefix]
  rw [show (s ++ '<' :: (g ++ [ '>' ])).length = (s.length + g.length + 1) + 1 from by
    simp only [List.length_append, List.length_cons, List.length_nil]
    omega]
  rw [remove_prefix_loop_succ, if_pos hcount]
  rw [takeWhile_ne_append s (g ++ [ '>' ]) hs,
    dropWhile_ne_append s (g ++ [ '>' ]) hs]
  have hdrop : (('<' :: (g ++ [ '>' ])).drop 1) = g ++ [ '>' ] := rfl
  rw [hdrop]
  rw [if_neg (by simp)]
  have htake : (g ++ [ '>' ]).take ((g ++ [ '>' ]).length - 1) = g := by
    have hlg : (g ++ [ '>' ]).length - 1 = g.length := by simp
    rw [hlg]
    exact List.take_left g [ '>' ]
  rw [htake]
  have hloopg : remove_prefix_loop (s.length + g.length + 1) g = some pg := by
    have hfuel : remove_prefix_loop (s.length + g.length + 1) g =
        remove_prefix_loop g.length g :=
      remove_prefix_loop_fuel _ _ g (by omega) (le_refl _)
    rw [hfuel]
    exact hpg
  rw [hloopg]
  show some ((match rfindSS s (':' :: ':' :: []) with
      | some pos => s.drop (pos + 2)
      | none => s) ++ '<' :: pg ++ [ '>' ]) =
    some (ps ++ '<' :: pg ++ [ '>' ])
  have hps' : (match rfindSS s (':' :: ':' :: []) with
      | some pos => s.drop (pos + 2)
      | none => s) = ps := by
    have hx := remove_prefix_no_lt s hs
    rw [hps] at hx
    exact (Option.some.inj hx).symm
  rw [hps']

theorem remove_prefix_panic :
    ∀ s : Str, (∀ x ∈ s, x ≠ '<') → remove_prefix (s ++ [ '<' ]) = none := by
  intro s hs
  have h1 : s.count '<' = 0 := count_eq_zero_of_not_mem_char hs
  have hcount : (s ++ [ '<' ]).count '<' = 1 := by
    simp [List.count_append, List.count_cons, h1]
  rw [ remove_prefix]
  rw [show (s ++ [ '<' ]).length = s.length + 1 from by simp]
  rw [remove_prefix_loop_succ, if_pos hcount]
  have hdw : (s ++ [ '<' ]).dropWhile notLtChar = '<' :: [] :=
    dropWhile_ne_append s [] hs
  rw [hdw]
  rw [if_pos (show ((( '<' :: [] : Str)).drop 1).length = 0 from rfl)]

/-- Counterexample to C8 as stated: at one concrete application the printer
neither strips the `fn_` prefix (it only ever applies `remove_prefix`,
never `remove_fn_prefix`) nor strips nested generic arguments recursively —
a return type with two `'<'` falls through `collect_tuple` into the plain
`rfind("::")` branch and prints `C>>`. -/
theorem claim_C8_counterexample :
    remove_prefix "tls::fn_foo".toList = some "fn_foo".toList ∧
    remove_prefix "m::A<n::B<o::C>>".toList = some "C>>".toList ∧
    Term.display_at_depth (Term.application (M := AnyMatcher) funcC8 []) 0 =
      some "fn_foo -> C>>".toList ∧
    "fn_foo -> C>>".toList ≠ "foo -> A<B<C>>".toList := by
  refine ⟨rfl, rfl, rfl, by decide⟩

/-- Claim C8 (amended) — `display_at_depth` on an application prints the
function name applied to its children and `"-> ReturnType"`, both passed
through `remove_prefix` only: the module prefix is stripped, keeping the
text after the rightmost `"::"`; when the name contains exactly one `'<'`,
one level of generic argument is stripped recursively; a name with any
other number of `'<'` (so in particular nested generics) falls back to
plain rightmost-`"::"` stripping; the `fn_` prefix is NOT stripped; and a
name whose single `'<'` is its final character makes `remove_prefix` panic
(embedded as `none`, propagated by the display). -/
theorem claim_C8_display {M V : Type} :
    (∀ (f : Function V) (depth : Nat) (op ret : Str),
      remove_prefix f.name = some op →
      remove_prefix f.shape.return_type.name = some ret →
      Term.display_at_depth (Term.application (M := M) f []) depth =
        some (List.replicate depth '\t' ++ op ++ " -> ".toList ++ ret)) ∧
    (∀ (f : Function V) (a0 : TermEval M V) (args : List (TermEval M V))
        (depth : Nat) (op ret : Str) (args_strs : List Str),
      remove_prefix f.name = some op →
      remove_prefix f.shape.return_type.name = some ret →
      displayArgsList (a0 :: args) (depth + 1) = some args_strs →
      Term.display_at_depth (.application f (a0 :: args)) depth =
        some (List.replicate depth '\t' ++ op ++ "(\n".toList ++
          List.intercalate ",\n".toList args_strs ++
          "\n".toList ++ List.replicate depth '\t' ++ ") -> ".toList ++ ret)) ∧
    (∀ s : Str, s.count '<' ≠ 1 →
      remove_prefix s =
        some (match rfindSS s (':' :: ':' :: []) with
              | some pos => s.drop (pos + 2)
              | none => s)) ∧
    (∀ (s n : Str) (i : Nat), n ≠ [] → rfindSS s n = some i →
      occursAt s n i ∧ ∀ j, i < j → ¬ occursAt s n j) ∧
    (∀ a b : Str, (∀ x ∈ a, x ≠ '<') → (∀ x ∈ b, x ≠ '<') →
      (∀ j, ¬ occursAt b (':' :: ':' :: []) j) → b.head? ≠ some ':' →
      remove_prefix (a ++ ':' :: ':' :: b) = some b) ∧
    (∀ s g ps pg : Str, (∀ x ∈ s, x ≠ '<') → (∀ x ∈ g, x ≠ '<') →
      remove_prefix s = some ps → remove_prefix g = some pg →
      remove_prefix (s ++ '<' :: (g ++ [ '>' ])) =
        some (ps ++ '<' :: pg ++ [ '>' ])) ∧
    (∀ s : Str, (∀ x ∈ s, x ≠ '<') → remove_prefix (s ++ [ '<' ]) = none) := by
  refine ⟨?_, ?_, remove_prefix_fallback, rfindSS_some, remove_prefix_strip,
    remove_prefix_generic, remove_prefix_panic⟩
  · intro f depth op ret hop hret
    rw [Term.display_at_depth, hop, hret]
    rfl
  · intro f a0 args depth op ret args_strs hop hret hargs
    rw [Term.display_at_depth, hop, hret, hargs]
    rfl

/-- Witness for the amended C8: concrete module-prefix stripping, one-level
generic stripping, the panic on a trailing `'<'`, and the display format at
a concrete application. -/
theorem claim_C8_witness :
    remove_prefix ("test::test".toList ++ ':' :: ':' :: [ 'T' ]) = some [ 'T' ] ∧
    remove_prefix ("a::B".toList ++ '<' :: ("c::D".toList ++ [ '>' ])) =
      some ("B".toList ++ '<' :: "D".toList ++ [ '>' ]) ∧
    remove_prefix ("a".toList ++ [ '<' ]) = none ∧
    Term.display_at_depth (Term.application (M := AnyMatcher) funcC8 []) 0 =
      some (List.replicate 0 '\t' ++ "fn_foo".toList ++ " -> ".toList ++
        "C>>".toList) := by
  refine ⟨?_, ?_, ?_, ?_⟩
  · refine (claim_C8_display (M := AnyMatcher) (V := Nat)).2.2.2.2.1
      "test::test".toList [ 'T' ] (by decide) (by decide) ?_ (by decide)
    intro j hocc
    have hlen := occursAt_length hocc
    simp at hlen
    omega
  · exact (claim_C8_display (M := AnyMatcher) (V := Nat)).2.2.2.2.2.1
      "a::B".toList "c::D".toList "B".toList "D".toList
      (by decide) (by decide) rfl rfl
  · exact (claim_C8_display (M := AnyMatcher) (V := Nat)).2.2.2.2.2.2
      "a".toList (by decide)
  · exact (claim_C8_display (M := AnyMatcher) (V := Nat)).1 funcC8 0
      "fn_foo".toList "C>>".toList rfl rfl

end Puffin
